import Mathlib

/-! Metropolis sampling: the sampler core of `MetropolisSampling.h`

A shallow embedding of the class template `MetropolisSampling<element>` and of
the abstract class `PDF<element>` it drives.

Modelling conventions.

* `double` values returned by `PDF::probability` are finite and are modelled by
  exact rationals (no rounding).  The quotient `alpha` of two such values keeps the
  IEEE 754 outcomes of a division by zero: `+inf`, `-inf` and `NaN` (type `Alpha`).
* The arithmetic of the concrete density `Normal1dPDF` is rounded: every operation
  returns the `double` nearest to its exact result (`to_double`), since what is stated
  about it is the size of a `double` sum.
* The hidden state the program runs against (the generator behind `rand()`, and
  whatever a concrete density keeps or reads) is an explicit value of a type `W`.
* Every call the sampler makes on the density, and every `rand()` call of the
  sampler itself, is appended to a call log carried next to that state, so that
  statements about how many calls happen are statements about the log.
* In `probability(proposal) / probability(actual)` the log lists the call on the
  candidate first; C++ does not fix the order of the two operands, `probability` has no
  side effect here, and no statement below depends on that order.
* `int` is modelled by `Int`; the sampler only compares and copies `k`, and the
  loop counter of `run` never exceeds its bound.
-/

namespace Metropolis

/-- One entry of the call log: a virtual call on the density, or a `rand()` call made
by the sampler itself. -/
inductive Call (element : Type) where
  | valid_candidate : Call element
  | candidate_proposal (current : element) : Call element
  | probability (x : element) : Call element
  | rand : Call element
  deriving DecidableEq, Repr

/-- The state outside the sampler object: the hidden state `world` and the call log
(oldest call first). -/
structure Machine (element W : Type) where
  world : W
  calls : List (Call element)

/-- The part of `<cstdlib>` the sampler uses: the constant `RAND_MAX` (at least 32767 by
the C standard) and `rand()`, a step of the hidden state returning an integer between
0 and `RAND_MAX`. -/
structure Stdlib (W : Type) where
  RAND_MAX : Nat
  rand : W → Nat × W
  RAND_MAX_ge : 32767 ≤ RAND_MAX
  rand_le : ∀ w, (rand w).1 ≤ RAND_MAX

/-- The abstract class `PDF<element>` of `PDF.h`: `probability` and `valid_candidate`
are taken to be free of side effects, `candidate_proposal` may read and change the
hidden state (for instance by calling `rand()`). -/
structure PDF (element W : Type) where
  probability : element → ℚ
  candidate_proposal : element → W → element × W
  valid_candidate : element

/-- Exceptions thrown by the sampler. -/
inductive Exception where
  | invalid_argument (what : String) : Exception
  deriving DecidableEq, Repr

/-- The value of a `double` division of two finite operands. -/
inductive Alpha where
  | finite (q : ℚ) : Alpha
  | pos_inf : Alpha
  | neg_inf : Alpha
  | nan : Alpha
  deriving DecidableEq

/-- The division `a / b` of `double`: the exact quotient when `b` is not zero, and
otherwise an infinity with the sign of `a`, or NaN for `0 / 0`. -/
def fdiv (a b : ℚ) : Alpha :=
  if b = 0 then
    if 0 < a then Alpha.pos_inf
    else if a < 0 then Alpha.neg_inf
    else Alpha.nan
  else Alpha.finite (a / b)

/-- The comparison `alpha >= 1`. -/
def Alpha.ge_one : Alpha → Bool
  | Alpha.finite q => decide (1 ≤ q)
  | Alpha.pos_inf => true
  | Alpha.neg_inf => false
  | Alpha.nan => false

/-- The comparison `u < alpha` for a finite `u`. -/
def Alpha.gt (alpha : Alpha) (u : ℚ) : Bool :=
  match alpha with
  | Alpha.finite q => decide (u < q)
  | Alpha.pos_inf => true
  | Alpha.neg_inf => false
  | Alpha.nan => false

/-- The data members of `MetropolisSampling<element>`. -/
structure MetropolisSampling (element W : Type) where
  pdf : PDF element W
  actual : element
  k : Int

/-- Appending one call to the log. -/
def Machine.log {element W : Type} (m : Machine element W) (c : Call element) :
    Machine element W :=
  { world := m.world, calls := m.calls ++ [c] }

/-- The constructor `MetropolisSampling(PDF<element>* p, int thinning)`: the result is
the exception thrown or the object built, together with the state left behind. -/
def MetropolisSampling.new {element W : Type} (p : PDF element W) (thinning : Int)
    (m : Machine element W) :
    Except Exception (MetropolisSampling element W) × Machine element W :=
  if thinning < 0 then
    (Except.error
      (Exception.invalid_argument "Thinning interval \x27k\x27 must greater than 0."), m)
  else
    (Except.ok { pdf := p, actual := p.valid_candidate, k := thinning },
      m.log Call.valid_candidate)

/-- The constructor `MetropolisSampling(PDF<element>* p)`. -/
def MetropolisSampling.new_default {element W : Type} (p : PDF element W)
    (m : Machine element W) : MetropolisSampling element W × Machine element W :=
  ({ pdf := p, actual := p.valid_candidate, k := 0 }, m.log Call.valid_candidate)

/-- The body of the `for` loop of `run` (lines 100 to 111). -/
def run_body {element W : Type} (L : Stdlib W) (s : MetropolisSampling element W)
    (m : Machine element W) : MetropolisSampling element W × Machine element W :=
  let pc := s.pdf.candidate_proposal s.actual m.world
  let proposal := pc.1
  let m1 : Machine element W :=
    { world := pc.2, calls := m.calls ++ [Call.candidate_proposal s.actual] }
  let alpha := fdiv (s.pdf.probability proposal) (s.pdf.probability s.actual)
  let m2 : Machine element W :=
    { world := m1.world,
      calls := m1.calls ++ [Call.probability proposal, Call.probability s.actual] }
  if alpha.ge_one then
    ({ s with actual := proposal }, m2)
  else
    let rc := L.rand m2.world
    let u : ℚ := (rc.1 : ℚ) / (L.RAND_MAX : ℚ)
    let m3 : Machine element W := { world := rc.2, calls := m2.calls ++ [Call.rand] }
    if alpha.gt u then
      ({ s with actual := proposal }, m3)
    else
      (s, m3)

/-- The loop `for (int i = 0; i < iterations; i++)` of `run`, by the number of
iterations still to do. -/
def run_loop {element W : Type} (L : Stdlib W) :
    Nat → MetropolisSampling element W → Machine element W →
      MetropolisSampling element W × Machine element W
  | 0, s, m => (s, m)
  | n + 1, s, m => run_loop L n (run_body L s m).1 (run_body L s m).2

/-- The member function `run(int iterations)`: the loop runs `iterations` times, and not
at all when `iterations` is zero or negative. -/
def run {element W : Type} (L : Stdlib W) (s : MetropolisSampling element W)
    (iterations : Int) (m : Machine element W) :
    MetropolisSampling element W × Machine element W :=
  run_loop L iterations.toNat s m

/-- The member function `get_next_sample()`: the value returned, the object and the
state after the call. -/
def get_next_sample {element W : Type} (L : Stdlib W) (s : MetropolisSampling element W)
    (m : Machine element W) :
    element × MetropolisSampling element W × Machine element W :=
  let sm := if s.k > 0 then run L s s.k m else (s, m)
  let s0 := sm.1
  let m0 := sm.2
  let pc := s0.pdf.candidate_proposal s0.actual m0.world
  let proposal := pc.1
  let m1 : Machine element W :=
    { world := pc.2, calls := m0.calls ++ [Call.candidate_proposal s0.actual] }
  let alpha := fdiv (s0.pdf.probability proposal) (s0.pdf.probability s0.actual)
  let m2 : Machine element W :=
    { world := m1.world,
      calls := m1.calls ++ [Call.probability proposal, Call.probability s0.actual] }
  if alpha.ge_one then
    (proposal, { s0 with actual := proposal }, m2)
  else
    let rc := L.rand m2.world
    let u : ℚ := (rc.1 : ℚ) / (L.RAND_MAX : ℚ)
    let m3 : Machine element W := { world := rc.2, calls := m2.calls ++ [Call.rand] }
    if alpha.gt u then
      (proposal, { s0 with actual := proposal }, m3)
    else
      (s0.actual, s0, m3)

/-- The caller of `main.cpp`: `n` successive calls of `get_next_sample()`, collecting the
values returned in order. -/
def get_samples {element W : Type} (L : Stdlib W) :
    Nat → MetropolisSampling element W → Machine element W →
      List element × MetropolisSampling element W × Machine element W
  | 0, s, m => ([], s, m)
  | n + 1, s, m =>
    let r := get_next_sample L s m
    let rest := get_samples L n r.2.1 r.2.2
    (r.1 :: rest.1, rest.2.1, rest.2.2)

/-- Number of `candidate_proposal` calls in a log. -/
def proposal_calls {element : Type} (cs : List (Call element)) : Nat :=
  (cs.filter (fun c => match c with | Call.candidate_proposal _ => true | _ => false)).length

/-- Number of `probability` calls in a log. -/
def probability_calls {element : Type} (cs : List (Call element)) : Nat :=
  (cs.filter (fun c => match c with | Call.probability _ => true | _ => false)).length

/-- Number of `rand()` calls of the sampler in a log. -/
def rand_calls {element : Type} (cs : List (Call element)) : Nat :=
  (cs.filter (fun c => match c with | Call.rand => true | _ => false)).length

/-- The arguments of the `candidate_proposal` calls of a log, in order. -/
def proposal_args {element : Type} (cs : List (Call element)) : List element :=
  cs.filterMap (fun c => match c with | Call.candidate_proposal x => some x | _ => none)

/-- The expression `static_cast<double>(rand()) / RAND_MAX` for the value `r` that
`rand()` returned. -/
def uniform_of {W : Type} (L : Stdlib W) (r : Nat) : ℚ :=
  (r : ℚ) / (L.RAND_MAX : ℚ)

/-- The comparison `alpha < 1`; like every comparison of `double`, it is false for
NaN. -/
def Alpha.lt_one : Alpha → Bool
  | Alpha.finite q => decide (q < 1)
  | Alpha.pos_inf => false
  | Alpha.neg_inf => true
  | Alpha.nan => false

/-- The quotient `alpha` that an accept/reject step started on object `s` and state `m`
computes (lines 66 to 67, and 100 to 101). -/
def body_alpha {element W : Type} (s : MetropolisSampling element W)
    (m : Machine element W) : Alpha :=
  fdiv (s.pdf.probability (s.pdf.candidate_proposal s.actual m.world).1)
    (s.pdf.probability s.actual)

/-- The quotient `alpha` of step number `i` (from 0) of the steps that follow object `s`
and state `m`. -/
def step_alpha {element W : Type} (L : Stdlib W) (s : MetropolisSampling element W)
    (m : Machine element W) (i : Nat) : Alpha :=
  body_alpha (run_loop L i s m).1 (run_loop L i s m).2

/-- The decision of lines 69 to 77 (and 103 to 111) as a function of the density `dc` of
the candidate, the density `da` of the current value and the number `u` that `rand()`
gives when asked: true when `actual = proposal` is executed. -/
def accepts (dc da u : ℚ) : Bool :=
  if (fdiv dc da).ge_one then true
  else if (fdiv dc da).gt u then true
  else false

/-- Rounding of a rational to the nearest integer, a tie going to the even one. -/
def round_half_even (m : ℚ) : Int :=
  if m - (⌊m⌋ : ℚ) < 1 / 2 then ⌊m⌋
  else if 1 / 2 < m - (⌊m⌋ : ℚ) then ⌊m⌋ + 1
  else if ⌊m⌋ % 2 = 0 then ⌊m⌋
  else ⌊m⌋ + 1

/-- The distance between neighbouring `double` values around `x`: `2 ^ (e - 52)` when
`2 ^ e <= |x| < 2 ^ (e + 1)`, with `e` taken as -1022 for smaller magnitudes (binary64
has 53 significant bits and least normal exponent -1022). -/
def double_ulp (x : ℚ) : ℚ :=
  (2 : ℚ) ^ (max (Int.log 2 |x|) (-1022) - 52)

/-- The `double` that an arithmetic operation of exact result `x` returns: `x` rounded to
the nearest multiple of the spacing around it, a tie going to the even significand (the
default rounding of IEEE 754; results beyond the largest `double` are not modelled). -/
def to_double (x : ℚ) : ℚ :=
  (round_half_even (x / double_ulp x) : ℚ) * double_ulp x

/-- The functions and the constant of `<math.h>` used by `Normal1dPDF::probability`, as
functions on `double` values. -/
structure Libm where
  exp : ℚ → ℚ
  log : ℚ → ℚ
  sqrt : ℚ → ℚ
  pow : ℚ → ℚ → ℚ
  M_PI : ℚ

/-- The data members of `Normal1dPDF`. -/
structure Normal1dPDF where
  mean : ℚ
  stddev : ℚ

/-- The member function `Normal1dPDF::probability`, each operation rounded to `double`,
for a standard deviation that is not zero. -/
def Normal1dPDF.probability (M : Libm) (d : Normal1dPDF) (x : ℚ) : ℚ :=
  let exponent :=
    to_double (-0.5 * M.pow (to_double (to_double (x - d.mean) / d.stddev)) 2)
  let log_prob :=
    to_double (-M.log (to_double (d.stddev * M.sqrt (to_double (2 * M.M_PI)))) + exponent)
  M.exp log_prob

/-- The perturbation `double(rand()) / double(RAND_MAX) * 2 - 1` of
`Normal1dPDF::candidate_proposal` for the value `r` that `rand()` returned: two
conversions, a division, a multiplication and a subtraction of `double`. -/
def perturbation_of {W : Type} (L : Stdlib W) (r : Nat) : ℚ :=
  to_double (to_double (to_double (to_double (r : ℚ) / to_double (L.RAND_MAX : ℚ)) * 2) - 1)

/-- The member function `Normal1dPDF::candidate_proposal`: one `rand()` call, and the
`double` sum of `current` and the perturbation. -/
def Normal1dPDF.candidate_proposal {W : Type} (L : Stdlib W) (_d : Normal1dPDF)
    (current : ℚ) (w : W) : ℚ × W :=
  let rc := L.rand w
  (to_double (current + perturbation_of L rc.1), rc.2)

/-- The member function `Normal1dPDF::valid_candidate`. -/
def Normal1dPDF.valid_candidate (d : Normal1dPDF) : ℚ :=
  d.mean

/-- The object `Normal1dPDF(mean, stddev)` seen through the base class `PDF<double>`. -/
def Normal1dPDF.toPDF {W : Type} (M : Libm) (L : Stdlib W) (d : Normal1dPDF) : PDF ℚ W where
  probability := d.probability M
  candidate_proposal := d.candidate_proposal L
  valid_candidate := d.valid_candidate

/-! ## Example environment -/

/-- A `rand()` whose hidden state is a counter: it returns the counter modulo 32768. -/
def counterLib : Stdlib Nat where
  RAND_MAX := 32767
  rand := fun w => (w % 32768, w + 1)
  RAND_MAX_ge := Nat.le_refl 32767
  rand_le := fun w => Nat.lt_succ_iff.mp (Nat.mod_lt w (by decide))

/-- A density on the integers with constant value 1 and proposal `current + 1`. -/
def flatPDF : PDF Int Nat where
  probability := fun _ => 1
  candidate_proposal := fun x w => (x + 1, w)
  valid_candidate := 0

/-- A density on the integers with value 2 at 0 and 1 elsewhere, and proposal
`current + 1`. -/
def peakPDF : PDF Int Nat where
  probability := fun x => if x = 0 then 2 else 1
  candidate_proposal := fun x w => (x + 1, w)
  valid_candidate := 0

/-- A density on the integers with value 1 at 0 and 0 elsewhere, and proposal
`current + 1`. -/
def pointPDF : PDF Int Nat where
  probability := fun x => if x = 0 then 1 else 0
  candidate_proposal := fun x w => (x + 1, w)
  valid_candidate := 0

/-- An empty log over the counter state 0. -/
def startMachine : Machine Int Nat := { world := 0, calls := [] }

/-- A sampler over the flat density with thinning interval 2. -/
def flatSampler : MetropolisSampling Int Nat := { pdf := flatPDF, actual := 0, k := 2 }

/-- A sampler over the flat density without thinning. -/
def flatSampler0 : MetropolisSampling Int Nat := { pdf := flatPDF, actual := 0, k := 0 }

/-- A sampler over the peaked density without thinning. -/
def peakSampler : MetropolisSampling Int Nat := { pdf := peakPDF, actual := 0, k := 0 }

/-- An empty log over the counter state 32767, at which `rand()` returns `RAND_MAX`. -/
def endMachine : Machine Int Nat := { world := 32767, calls := [] }

/-- The density of `main.cpp`: `Normal1dPDF(0, 10)`. -/
def mainNormal : Normal1dPDF := { mean := 0, stddev := 10 }

/-- The `double` value `2 ^ 53 + 2`, around which neighbouring `double` values are 2
apart. -/
def bigCurrent : ℚ := 9007199254740994

/-! ## The accept/reject step -/

/-- The guard `k > 0` around the call `run(k)` changes nothing: `run` with a bound that
is not positive does no iteration. -/
theorem guarded_run_eq {element W : Type} (L : Stdlib W) (s : MetropolisSampling element W)
    (m : Machine element W) :
    (if s.k > 0 then run L s s.k m else (s, m)) = run L s s.k m := by
  by_cases h : s.k > 0
  · simp [h]
  · have h0 : s.k.toNat = 0 := Int.toNat_eq_zero.mpr (not_lt.mp h)
    simp [h, run, h0, run_loop]

/-- The reported step of `get_next_sample` is the loop body of `run`, applied to what the
thinning left. -/
theorem get_next_sample_eq_body {element W : Type} (L : Stdlib W)
    (s : MetropolisSampling element W) (m : Machine element W) :
    get_next_sample L s m =
      ((run_body L (run L s s.k m).1 (run L s s.k m).2).1.actual,
        run_body L (run L s s.k m).1 (run L s s.k m).2) := by
  rw [← guarded_run_eq]
  unfold get_next_sample run_body
  simp only []
  split_ifs <;> rfl

/-- Doing `n + 1` iterations is doing `n` iterations and then the body once more. -/
theorem run_loop_succ {element W : Type} (L : Stdlib W) (n : Nat)
    (s : MetropolisSampling element W) (m : Machine element W) :
    run_loop L (n + 1) s m =
      run_body L (run_loop L n s m).1 (run_loop L n s m).2 := by
  induction n generalizing s m with
  | zero => rfl
  | succ n ih =>
    have h := ih (run_body L s m).1 (run_body L s m).2
    exact h

/-- The loop body never changes the density. -/
theorem run_body_pdf {element W : Type} (L : Stdlib W) (s : MetropolisSampling element W)
    (m : Machine element W) : (run_body L s m).1.pdf = s.pdf := by
  unfold run_body
  simp only []
  split_ifs <;> rfl

/-- The loop body never changes the thinning interval. -/
theorem run_body_k {element W : Type} (L : Stdlib W) (s : MetropolisSampling element W)
    (m : Machine element W) : (run_body L s m).1.k = s.k := by
  unfold run_body
  simp only []
  split_ifs <;> rfl

/-- The loop never changes the density. -/
theorem run_loop_pdf {element W : Type} (L : Stdlib W) (n : Nat)
    (s : MetropolisSampling element W) (m : Machine element W) :
    (run_loop L n s m).1.pdf = s.pdf := by
  induction n with
  | zero => rfl
  | succ n ih => rw [run_loop_succ, run_body_pdf, ih]

/-- The loop never changes the thinning interval. -/
theorem run_loop_k {element W : Type} (L : Stdlib W) (n : Nat)
    (s : MetropolisSampling element W) (m : Machine element W) :
    (run_loop L n s m).1.k = s.k := by
  induction n with
  | zero => rfl
  | succ n ih => rw [run_loop_succ, run_body_k, ih]

/-- With a positive denominator the quotient is the exact quotient. -/
theorem fdiv_of_pos (a b : ℚ) (hb : 0 < b) : fdiv a b = Alpha.finite (a / b) := by
  unfold fdiv
  rw [if_neg (ne_of_gt hb)]

/-- The chain value left by the loop body when the current value has positive density. -/
theorem run_body_actual_of_pos {element W : Type} (L : Stdlib W)
    (s : MetropolisSampling element W) (m : Machine element W)
    (hpos : 0 < s.pdf.probability s.actual) :
    (run_body L s m).1.actual =
      (if 1 ≤ s.pdf.probability (s.pdf.candidate_proposal s.actual m.world).1 /
          s.pdf.probability s.actual then
        (s.pdf.candidate_proposal s.actual m.world).1
      else if ((L.rand (s.pdf.candidate_proposal s.actual m.world).2).1 : ℚ) /
          (L.RAND_MAX : ℚ) <
            s.pdf.probability (s.pdf.candidate_proposal s.actual m.world).1 /
              s.pdf.probability s.actual then
        (s.pdf.candidate_proposal s.actual m.world).1
      else s.actual) := by
  unfold run_body
  simp only [fdiv_of_pos _ _ hpos, Alpha.ge_one, Alpha.gt, decide_eq_true_eq]
  split_ifs <;> rfl

/-- The uniform number the sampler draws is never negative. -/
theorem uniform_nonneg {W : Type} (L : Stdlib W) (w : W) :
    (0 : ℚ) ≤ ((L.rand w).1 : ℚ) / (L.RAND_MAX : ℚ) :=
  div_nonneg (Nat.cast_nonneg _) (Nat.cast_nonneg _)

/-- The loop body logs exactly one `candidate_proposal` call, on the current chain value. -/
theorem run_body_proposal_args {element W : Type} (L : Stdlib W)
    (s : MetropolisSampling element W) (m : Machine element W) :
    proposal_args (run_body L s m).2.calls = proposal_args m.calls ++ [s.actual] := by
  unfold run_body
  simp only []
  split_ifs <;> simp [proposal_args, List.filterMap_append]

/-- The loop body makes exactly one `candidate_proposal` call. -/
theorem run_body_proposal_calls {element W : Type} (L : Stdlib W)
    (s : MetropolisSampling element W) (m : Machine element W) :
    proposal_calls (run_body L s m).2.calls = proposal_calls m.calls + 1 := by
  unfold run_body
  simp only []
  split_ifs <;> simp [proposal_calls, List.filter_append]

/-- The loop body makes exactly two `probability` calls. -/
theorem run_body_probability_calls {element W : Type} (L : Stdlib W)
    (s : MetropolisSampling element W) (m : Machine element W) :
    probability_calls (run_body L s m).2.calls = probability_calls m.calls + 2 := by
  unfold run_body
  simp only []
  split_ifs <;> simp [probability_calls, List.filter_append]

/-- The `candidate_proposal` calls of `n` iterations: one per iteration, on the chain
value at the start of that iteration. -/
theorem run_loop_proposal_args {element W : Type} (L : Stdlib W) (n : Nat)
    (s : MetropolisSampling element W) (m : Machine element W) :
    proposal_args (run_loop L n s m).2.calls =
      proposal_args m.calls ++
        (List.range n).map (fun i => (run_loop L i s m).1.actual) := by
  induction n with
  | zero => simp [run_loop]
  | succ n ih =>
    rw [run_loop_succ, run_body_proposal_args, ih, List.range_succ, List.map_append,
      List.append_assoc]
    rfl

/-- The number of `candidate_proposal` calls of `n` iterations is `n`. -/
theorem run_loop_proposal_calls {element W : Type} (L : Stdlib W) (n : Nat)
    (s : MetropolisSampling element W) (m : Machine element W) :
    proposal_calls (run_loop L n s m).2.calls = proposal_calls m.calls + n := by
  induction n with
  | zero => rfl
  | succ n ih => rw [run_loop_succ, run_body_proposal_calls, ih, Nat.add_assoc]

/-- The number of `probability` calls of `n` iterations is `2 * n`. -/
theorem run_loop_probability_calls {element W : Type} (L : Stdlib W) (n : Nat)
    (s : MetropolisSampling element W) (m : Machine element W) :
    probability_calls (run_loop L n s m).2.calls = probability_calls m.calls + 2 * n := by
  induction n with
  | zero => rfl
  | succ n ih => rw [run_loop_succ, run_body_probability_calls, ih]; ring

/-- The whole of `get_next_sample` as `k + 1` iterations of the loop of `run`, for an
interval `k` of any sign (`k.toNat` is 0 for a negative `k`). -/
theorem get_next_sample_eq_loop {element W : Type} (L : Stdlib W)
    (s : MetropolisSampling element W) (m : Machine element W) :
    get_next_sample L s m =
      ((run_loop L (s.k.toNat + 1) s m).1.actual, run_loop L (s.k.toNat + 1) s m) := by
  rw [get_next_sample_eq_body, run_loop_succ]
  rfl

/-- The loop only changes the chain value: a property of the chain value that the loop
body keeps is kept by any number of iterations. -/
theorem run_loop_invariant {element W : Type} (L : Stdlib W) (p : PDF element W)
    (P : element → Prop)
    (hstep : ∀ (s : MetropolisSampling element W) (m : Machine element W),
      s.pdf = p → P s.actual → P (run_body L s m).1.actual)
    (n : Nat) (s : MetropolisSampling element W) (m : Machine element W)
    (hp : s.pdf = p) (h : P s.actual) : P (run_loop L n s m).1.actual := by
  induction n with
  | zero => exact h
  | succ n ih =>
    rw [run_loop_succ]
    exact hstep _ _ ((run_loop_pdf L n s m).trans hp) ih

/-- One call of `get_next_sample` keeps the density and the interval. -/
theorem get_next_sample_frame {element W : Type} (L : Stdlib W)
    (s : MetropolisSampling element W) (m : Machine element W) :
    (get_next_sample L s m).2.1.pdf = s.pdf ∧ (get_next_sample L s m).2.1.k = s.k := by
  rw [get_next_sample_eq_loop]
  exact ⟨run_loop_pdf L _ s m, run_loop_k L _ s m⟩

/-- A property of the chain value that the loop body keeps holds for the value returned
by `get_next_sample` and for the chain value it leaves. -/
theorem get_next_sample_invariant {element W : Type} (L : Stdlib W) (p : PDF element W)
    (P : element → Prop)
    (hstep : ∀ (s : MetropolisSampling element W) (m : Machine element W),
      s.pdf = p → P s.actual → P (run_body L s m).1.actual)
    (s : MetropolisSampling element W) (m : Machine element W)
    (hp : s.pdf = p) (h : P s.actual) :
    P (get_next_sample L s m).1 ∧ P (get_next_sample L s m).2.1.actual := by
  rw [get_next_sample_eq_loop]
  exact ⟨run_loop_invariant L p P hstep _ s m hp h, run_loop_invariant L p P hstep _ s m hp h⟩

/-- A property of the chain value that the loop body keeps holds for every value
returned by successive calls of `get_next_sample`, and for the chain value left. -/
theorem get_samples_invariant {element W : Type} (L : Stdlib W) (p : PDF element W)
    (P : element → Prop)
    (hstep : ∀ (s : MetropolisSampling element W) (m : Machine element W),
      s.pdf = p → P s.actual → P (run_body L s m).1.actual)
    (n : Nat) (s : MetropolisSampling element W) (m : Machine element W)
    (hp : s.pdf = p) (h : P s.actual) :
    (∀ x ∈ (get_samples L n s m).1, P x) ∧ P (get_samples L n s m).2.1.actual := by
  induction n generalizing s m with
  | zero => exact ⟨by simp [get_samples], h⟩
  | succ n ih =>
    have h1 := get_next_sample_invariant L p P hstep s m hp h
    have hp1 : (get_next_sample L s m).2.1.pdf = p :=
      (get_next_sample_frame L s m).1.trans hp
    have h2 := ih (get_next_sample L s m).2.1 (get_next_sample L s m).2.2 hp1 h1.2
    refine ⟨?_, h2.2⟩
    intro x hx
    simp only [get_samples, List.mem_cons] at hx
    rcases hx with hx | hx
    · rw [hx]; exact h1.1
    · exact h2.1 x hx

/-- The caller collects one value per call. -/
theorem get_samples_length {element W : Type} (L : Stdlib W) (n : Nat)
    (s : MetropolisSampling element W) (m : Machine element W) :
    (get_samples L n s m).1.length = n := by
  induction n generalizing s m with
  | zero => rfl
  | succ n ih => simp [get_samples, ih]

/-- The loop body keeps the density of the chain value positive. -/
theorem run_body_keeps_positive {element W : Type} (L : Stdlib W)
    (s : MetropolisSampling element W) (m : Machine element W)
    (hpos : 0 < s.pdf.probability s.actual) :
    0 < s.pdf.probability (run_body L s m).1.actual := by
  rw [run_body_actual_of_pos L s m hpos]
  split_ifs with h1 h2
  · exact lt_of_lt_of_le hpos ((one_le_div hpos).mp h1)
  · have hu := uniform_nonneg L (s.pdf.candidate_proposal s.actual m.world).2
    have hq := lt_of_le_of_lt hu h2
    exact (div_pos_iff_of_pos_right hpos).mp hq
  · exact hpos

/-- The loop body keeps the chain value at a point outside of which the density is 0. -/
theorem run_body_keeps_point {element W : Type} (L : Stdlib W)
    (s : MetropolisSampling element W) (m : Machine element W) (x0 : element)
    (hx0 : s.actual = x0) (hpos : 0 < s.pdf.probability x0)
    (hzero : ∀ x, x ≠ x0 → s.pdf.probability x = 0) :
    (run_body L s m).1.actual = x0 := by
  have hpos1 : 0 < s.pdf.probability s.actual := by rw [hx0]; exact hpos
  rw [run_body_actual_of_pos L s m hpos1]
  by_cases hc : (s.pdf.candidate_proposal s.actual m.world).1 = x0
  · split_ifs
    · exact hc
    · exact hc
    · exact hx0
  · have hu := uniform_nonneg L (s.pdf.candidate_proposal s.actual m.world).2
    rw [hzero _ hc, zero_div, if_neg (by norm_num), if_neg (not_lt.mpr hu)]
    exact hx0

/-- The loop body under a density with the same positive value everywhere: the candidate
is accepted, the hidden state is the one the proposal left, and the calls logged are the
proposal and the two evaluations. -/
theorem run_body_of_constant {element W : Type} (L : Stdlib W)
    (s : MetropolisSampling element W) (m : Machine element W) (c : ℚ) (hc : 0 < c)
    (hconst : ∀ x, s.pdf.probability x = c) :
    run_body L s m =
      ({ s with actual := (s.pdf.candidate_proposal s.actual m.world).1 },
        { world := (s.pdf.candidate_proposal s.actual m.world).2,
          calls := m.calls ++ [Call.candidate_proposal s.actual] ++
            [Call.probability (s.pdf.candidate_proposal s.actual m.world).1,
              Call.probability s.actual] }) := by
  unfold run_body
  simp only [hconst, fdiv_of_pos c c hc, div_self (ne_of_gt hc), Alpha.ge_one]
  simp

/-- Under a density with the same positive value everywhere the loop does not depend on
`rand()`. -/
theorem run_loop_of_constant {element W : Type} (L L2 : Stdlib W) (c : ℚ) (hc : 0 < c)
    (n : Nat) (s : MetropolisSampling element W) (m : Machine element W)
    (hconst : ∀ x, s.pdf.probability x = c) :
    run_loop L2 n s m = run_loop L n s m := by
  induction n with
  | zero => rfl
  | succ n ih =>
    have h1 : ∀ x, (run_loop L n s m).1.pdf.probability x = c := by
      rw [run_loop_pdf]; exact hconst
    have h2 : ∀ x, (run_loop L2 n s m).1.pdf.probability x = c := by
      rw [run_loop_pdf]; exact hconst
    rw [run_loop_succ, run_loop_succ, run_body_of_constant L2 _ _ c hc h2,
      run_body_of_constant L _ _ c hc h1, ih]

/-- Under a density with the same positive value everywhere the loop makes no `rand()`
call. -/
theorem run_loop_rand_calls_of_constant {element W : Type} (L : Stdlib W) (c : ℚ)
    (hc : 0 < c) (n : Nat) (s : MetropolisSampling element W) (m : Machine element W)
    (hconst : ∀ x, s.pdf.probability x = c) :
    rand_calls (run_loop L n s m).2.calls = rand_calls m.calls := by
  induction n with
  | zero => rfl
  | succ n ih =>
    have h1 : ∀ x, (run_loop L n s m).1.pdf.probability x = c := by
      rw [run_loop_pdf]; exact hconst
    rw [run_loop_succ, run_body_of_constant L _ _ c hc h1]
    simpa [rand_calls, List.filter_append] using ih

/-- A quotient below 1 is not at least 1. -/
theorem ge_one_of_lt_one (a : Alpha) (h : a.lt_one = true) : a.ge_one = false := by
  cases a with
  | finite q =>
    simp only [Alpha.lt_one, decide_eq_true_eq] at h
    simp [Alpha.ge_one, h]
  | pos_inf => simp [Alpha.lt_one] at h
  | neg_inf => rfl
  | nan => rfl

/-- The loop body when `alpha >= 1`: the candidate is stored, the hidden state is the one
the proposal left, and the calls logged are the proposal and the two evaluations. -/
theorem run_body_of_ge_one {element W : Type} (L : Stdlib W)
    (s : MetropolisSampling element W) (m : Machine element W)
    (h : (body_alpha s m).ge_one = true) :
    run_body L s m =
      ({ s with actual := (s.pdf.candidate_proposal s.actual m.world).1 },
        { world := (s.pdf.candidate_proposal s.actual m.world).2,
          calls := m.calls ++ [Call.candidate_proposal s.actual] ++
            [Call.probability (s.pdf.candidate_proposal s.actual m.world).1,
              Call.probability s.actual] }) := by
  unfold body_alpha at h
  unfold run_body
  simp only [h]
  rfl

/-- The loop body when `alpha >= 1` is false: `rand()` is called once, on the hidden
state the proposal left, and that call is the last one logged. -/
theorem run_body_of_not_ge_one {element W : Type} (L : Stdlib W)
    (s : MetropolisSampling element W) (m : Machine element W)
    (h : (body_alpha s m).ge_one = false) :
    (run_body L s m).2 =
      { world := (L.rand (s.pdf.candidate_proposal s.actual m.world).2).2,
        calls := m.calls ++ [Call.candidate_proposal s.actual] ++
          [Call.probability (s.pdf.candidate_proposal s.actual m.world).1,
            Call.probability s.actual] ++ [Call.rand] } := by
  unfold body_alpha at h
  unfold run_body
  simp only [h]
  split_ifs <;> first | rfl | contradiction

/-- The number of `rand()` calls of the loop body: none when `alpha >= 1`, one when
not. -/
theorem run_body_rand_calls {element W : Type} (L : Stdlib W)
    (s : MetropolisSampling element W) (m : Machine element W) :
    rand_calls (run_body L s m).2.calls =
      rand_calls m.calls + (if (body_alpha s m).ge_one then 0 else 1) := by
  by_cases h : (body_alpha s m).ge_one = true
  · rw [run_body_of_ge_one L s m h, if_pos h]
    simp [rand_calls, List.filter_append]
  · have h2 : (body_alpha s m).ge_one = false := by simpa using h
    rw [run_body_of_not_ge_one L s m h2, if_neg h]
    simp [rand_calls, List.filter_append]

/-- The number of `rand()` calls of `n` iterations: one for each iteration in which
`alpha >= 1` is false. -/
theorem run_loop_rand_calls {element W : Type} (L : Stdlib W) (n : Nat)
    (s : MetropolisSampling element W) (m : Machine element W) :
    rand_calls (run_loop L n s m).2.calls =
      rand_calls m.calls +
        ((List.range n).filter (fun i => !(step_alpha L s m i).ge_one)).length := by
  induction n with
  | zero => rfl
  | succ n ih =>
    rw [run_loop_succ, run_body_rand_calls, ih, List.range_succ, List.filter_append,
      List.length_append, Nat.add_assoc]
    congr 2
    unfold step_alpha
    by_cases h : (body_alpha (run_loop L n s m).1 (run_loop L n s m).2).ge_one = true
    · simp [h]
    · simp [h]

/-- The decision of the loop body is `accepts`, on the two densities and on the number
`rand()` gives after the proposal. -/
theorem run_body_fst_eq_accepts {element W : Type} (L : Stdlib W)
    (s : MetropolisSampling element W) (m : Machine element W) :
    (run_body L s m).1 =
      (if accepts (s.pdf.probability (s.pdf.candidate_proposal s.actual m.world).1)
          (s.pdf.probability s.actual)
          (uniform_of L (L.rand (s.pdf.candidate_proposal s.actual m.world).2).1) then
        { s with actual := (s.pdf.candidate_proposal s.actual m.world).1 }
      else s) := by
  unfold run_body accepts uniform_of
  simp only []
  split_ifs <;> first | rfl | contradiction

/-- The loop body leaves the candidate or the chain value it found. -/
theorem run_body_actual_cases {element W : Type} (L : Stdlib W)
    (s : MetropolisSampling element W) (m : Machine element W) :
    (run_body L s m).1.actual = (s.pdf.candidate_proposal s.actual m.world).1 ∨
      (run_body L s m).1.actual = s.actual := by
  rw [run_body_fst_eq_accepts]
  split_ifs
  · exact Or.inl rfl
  · exact Or.inr rfl

/-- The loop body changes nothing of the object but the chain value. -/
theorem run_body_fst_eq {element W : Type} (L : Stdlib W)
    (s : MetropolisSampling element W) (m : Machine element W) :
    (run_body L s m).1 = { s with actual := (run_body L s m).1.actual } := by
  rw [run_body_fst_eq_accepts]
  split_ifs <;> rfl

/-- After `n` iterations the chain value is the one before the loop or one of the `n`
candidates proposed. -/
theorem run_loop_actual_mem {element W : Type} (L : Stdlib W) (n : Nat)
    (s : MetropolisSampling element W) (m : Machine element W) :
    (run_loop L n s m).1.actual = s.actual ∨
      ∃ i, i < n ∧ (run_loop L n s m).1.actual =
        (s.pdf.candidate_proposal (run_loop L i s m).1.actual
          (run_loop L i s m).2.world).1 := by
  induction n with
  | zero => exact Or.inl rfl
  | succ n ih =>
    rw [run_loop_succ]
    rcases run_body_actual_cases L (run_loop L n s m).1 (run_loop L n s m).2 with h | h
    · rw [run_loop_pdf] at h
      exact Or.inr ⟨n, Nat.lt_succ_self n, h⟩
    · rw [h]
      rcases ih with h1 | ⟨i, hi, h1⟩
      · exact Or.inl h1
      · exact Or.inr ⟨i, Nat.lt_succ_of_lt hi, h1⟩

/-- Successive calls of `get_next_sample` keep the density and the interval. -/
theorem get_samples_frame {element W : Type} (L : Stdlib W) (n : Nat)
    (s : MetropolisSampling element W) (m : Machine element W) :
    (get_samples L n s m).2.1.pdf = s.pdf ∧ (get_samples L n s m).2.1.k = s.k := by
  induction n generalizing s m with
  | zero => exact ⟨rfl, rfl⟩
  | succ n ih =>
    have h1 := get_next_sample_frame L s m
    have h2 := ih (get_next_sample L s m).2.1 (get_next_sample L s m).2.2
    exact ⟨h2.1.trans h1.1, h2.2.trans h1.2⟩

/-- The number `rand() / RAND_MAX` lies between 0 and 1, and is 1 exactly when `rand()`
returns `RAND_MAX`. -/
theorem uniform_of_bounds {W : Type} (L : Stdlib W) (r : Nat) (hr : r ≤ L.RAND_MAX) :
    0 ≤ uniform_of L r ∧ uniform_of L r ≤ 1 ∧ (uniform_of L r = 1 ↔ r = L.RAND_MAX) := by
  have hpos : (0 : ℚ) < (L.RAND_MAX : ℚ) := by
    have h := L.RAND_MAX_ge
    exact_mod_cast (by omega : 0 < L.RAND_MAX)
  have hle : (r : ℚ) ≤ (L.RAND_MAX : ℚ) := by exact_mod_cast hr
  unfold uniform_of
  refine ⟨div_nonneg (Nat.cast_nonneg _) (le_of_lt hpos), (div_le_one hpos).mpr hle, ?_⟩
  rw [div_eq_one_iff_eq (ne_of_gt hpos)]
  exact Nat.cast_inj

/-- The loop body keeps the density of the chain value positive, for the density the
object was built over. -/
theorem run_body_keeps_positive_of_pdf {element W : Type} (L : Stdlib W)
    (p : PDF element W) (s : MetropolisSampling element W) (m : Machine element W)
    (hp : s.pdf = p) (h : 0 < p.probability s.actual) :
    0 < p.probability (run_body L s m).1.actual := by
  have h2 := run_body_keeps_positive L s m (by rw [hp]; exact h)
  rw [hp] at h2
  exact h2

/-- The loop changes nothing of the object but the chain value. -/
theorem run_loop_fst_eq {element W : Type} (L : Stdlib W) (n : Nat)
    (s : MetropolisSampling element W) (m : Machine element W) :
    (run_loop L n s m).1 = { s with actual := (run_loop L n s m).1.actual } := by
  have hp := run_loop_pdf L n s m
  have hk := run_loop_k L n s m
  generalize (run_loop L n s m).1 = t at hp hk
  cases t
  simp only at hp hk
  subst hp hk
  rfl

/-- Apart from NaN, `alpha >= 1` is false exactly when `alpha < 1` is true. -/
theorem not_ge_one_eq_lt_one (a : Alpha) (h : a ≠ Alpha.nan) : (!a.ge_one) = a.lt_one := by
  cases a with
  | finite q =>
    by_cases hq : 1 ≤ q
    · simp [Alpha.ge_one, Alpha.lt_one, hq]
    · simp [Alpha.ge_one, Alpha.lt_one, hq, not_le.mp hq]
  | pos_inf => rfl
  | neg_inf => rfl
  | nan => exact absurd rfl h

/-- From a chain value of positive density every later step computes a finite `alpha`. -/
theorem step_alpha_finite_of_pos {element W : Type} (L : Stdlib W)
    (s : MetropolisSampling element W) (m : Machine element W) (i : Nat)
    (hpos : 0 < s.pdf.probability s.actual) :
    ∃ q, step_alpha L s m i = Alpha.finite q := by
  have hi := run_loop_invariant L s.pdf (fun x => 0 < s.pdf.probability x)
    (fun s1 m1 hp1 h1 => run_body_keeps_positive_of_pdf L s.pdf s1 m1 hp1 h1) i s m rfl hpos
  unfold step_alpha body_alpha
  rw [run_loop_pdf]
  exact ⟨_, fdiv_of_pos _ _ hi⟩

/-- A finite `alpha` is at least 1 or below 1. -/
theorem ge_one_or_lt_one_of_finite (a : Alpha) (h : ∃ q, a = Alpha.finite q) :
    a.ge_one = true ∨ a.lt_one = true := by
  rcases h with ⟨q, rfl⟩
  by_cases hq : 1 ≤ q
  · exact Or.inl (by simp [Alpha.ge_one, hq])
  · exact Or.inr (by simp [Alpha.lt_one, not_le.mp hq])

/-- From a chain value of positive density, one call of `get_next_sample` makes one
`rand()` call for each of its steps with `alpha < 1`. -/
theorem get_next_sample_rand_calls_of_pos {element W : Type} (L : Stdlib W)
    (s : MetropolisSampling element W) (m : Machine element W)
    (hpos : 0 < s.pdf.probability s.actual) :
    rand_calls (get_next_sample L s m).2.2.calls =
      rand_calls m.calls +
        ((List.range (s.k.toNat + 1)).filter
          (fun i => (step_alpha L s m i).lt_one)).length := by
  rw [get_next_sample_eq_loop, run_loop_rand_calls]
  congr 2
  apply List.filter_congr
  intro i _
  apply not_ge_one_eq_lt_one
  rcases step_alpha_finite_of_pos L s m i hpos with ⟨q, hq⟩
  rw [hq]
  exact fun h => Alpha.noConfusion h

/-! ## Rounding to `double` -/

/-- The rounded integer is the floor, or the floor plus one for a number that is not an integer. -/
theorem round_half_even_cases (m : ℚ) :
    round_half_even m = ⌊m⌋ ∨ (round_half_even m = ⌊m⌋ + 1 ∧ (⌊m⌋ : ℚ) < m) := by
  unfold round_half_even
  split_ifs with h1 h2 h3
  · exact Or.inl rfl
  · exact Or.inr ⟨rfl, by linarith⟩
  · exact Or.inl rfl
  · refine Or.inr ⟨rfl, ?_⟩
    have : (1 : ℚ) / 2 ≤ m - ⌊m⌋ := not_lt.mp h1
    linarith

/-- Rounding does not cross an integer above. -/
theorem round_half_even_le (m : ℚ) (N : ℤ) (h : m ≤ N) : round_half_even m ≤ N := by
  have hf : (⌊m⌋ : ℚ) ≤ m := Int.floor_le m
  rcases round_half_even_cases m with h1 | ⟨h1, h2⟩
  · rw [h1]
    exact_mod_cast le_trans hf h
  · rw [h1]
    have h3 : (⌊m⌋ : ℚ) < (N : ℚ) := lt_of_lt_of_le h2 h
    have h4 : ⌊m⌋ < N := by exact_mod_cast h3
    omega

/-- Rounding does not cross an integer below. -/
theorem le_round_half_even (m : ℚ) (N : ℤ) (h : (N : ℚ) ≤ m) : N ≤ round_half_even m := by
  have hf : N ≤ ⌊m⌋ := Int.le_floor.mpr h
  rcases round_half_even_cases m with h1 | ⟨h1, _⟩
  · rw [h1]; exact hf
  · rw [h1]; omega

/-- Rounding to the nearest integer is monotone. -/
theorem round_half_even_mono (m1 m2 : ℚ) (h : m1 ≤ m2) :
    round_half_even m1 ≤ round_half_even m2 := by
  have hf : ⌊m1⌋ ≤ ⌊m2⌋ := Int.floor_mono h
  rcases lt_or_eq_of_le hf with hlt | heq
  · have h1 : round_half_even m1 ≤ ⌊m1⌋ + 1 := by
      rcases round_half_even_cases m1 with h1 | ⟨h1, _⟩ <;> omega
    have h2 : ⌊m2⌋ ≤ round_half_even m2 := by
      rcases round_half_even_cases m2 with h2 | ⟨h2, _⟩ <;> omega
    omega
  · unfold round_half_even
    rw [← heq]
    split_ifs <;> first | omega | (exfalso; linarith)

/-- An integer rounds to itself. -/
theorem round_half_even_intCast (z : ℤ) : round_half_even (z : ℚ) = z := by
  unfold round_half_even
  rw [Int.floor_intCast]
  norm_num

/-- The spacing of `double` values is positive. -/
theorem double_ulp_pos (x : ℚ) : 0 < double_ulp x := by
  unfold double_ulp
  positivity

/-- Rounding to `double` does not cross, from below, a multiple of the spacing. -/
theorem to_double_le (x c : ℚ) (N : ℤ) (hc : c = (N : ℚ) * double_ulp x) (h : x ≤ c) :
    to_double x ≤ c := by
  have hu := double_ulp_pos x
  have h1 : x / double_ulp x ≤ (N : ℚ) := by
    rw [div_le_iff₀ hu, ← hc]; exact h
  have h2 := round_half_even_le _ N h1
  unfold to_double
  rw [hc]
  exact mul_le_mul_of_nonneg_right (by exact_mod_cast h2) (le_of_lt hu)

/-- Rounding to `double` does not cross, from above, a multiple of the spacing. -/
theorem le_to_double (x c : ℚ) (N : ℤ) (hc : c = (N : ℚ) * double_ulp x) (h : c ≤ x) :
    c ≤ to_double x := by
  have hu := double_ulp_pos x
  have h1 : (N : ℚ) ≤ x / double_ulp x := by
    rw [le_div_iff₀ hu, ← hc]; exact h
  have h2 := le_round_half_even _ N h1
  unfold to_double
  rw [hc]
  exact mul_le_mul_of_nonneg_right (by exact_mod_cast h2) (le_of_lt hu)

/-- A value that is not negative rounds to a `double` that is not negative. -/
theorem to_double_nonneg (x : ℚ) (h : 0 ≤ x) : 0 ≤ to_double x :=
  le_to_double x 0 0 (by simp) h

/-- The exponent of the spacing around a value of magnitude at most `2 ^ j`. -/
theorem ulp_exponent_le (x : ℚ) (j : ℤ) (hj : 0 ≤ j) (hx : |x| ≤ (2 : ℚ) ^ j) :
    max (Int.log 2 |x|) (-1022) ≤ j := by
  apply max_le _ (by omega)
  rcases eq_or_lt_of_le (abs_nonneg x) with h0 | hpos
  · rw [← h0, Int.log_zero_right]
    exact hj
  · have h1 := Int.log_mono_right (b := 2) hpos hx
    have h2 : Int.log 2 ((2 : ℚ) ^ j) = j := by
      have := Int.log_zpow (R := ℚ) (b := 2) one_lt_two j
      simpa using this
    rw [h2] at h1
    exact h1

/-- A power of two is a multiple of the spacing around any value it bounds. -/
theorem two_zpow_eq_int_mul_ulp (x : ℚ) (j : ℤ) (hj : 0 ≤ j) (hx : |x| ≤ (2 : ℚ) ^ j) :
    ∃ N : ℤ, (2 : ℚ) ^ j = (N : ℚ) * double_ulp x := by
  have hE := ulp_exponent_le x j hj hx
  refine ⟨2 ^ (j - (max (Int.log 2 |x|) (-1022) - 52)).toNat, ?_⟩
  unfold double_ulp
  have ht : ((j - (max (Int.log 2 |x|) (-1022) - 52)).toNat : ℤ) =
      j - (max (Int.log 2 |x|) (-1022) - 52) := Int.toNat_of_nonneg (by omega)
  push_cast
  rw [← zpow_natCast, ht, ← zpow_add₀ (two_ne_zero)]
  congr 1
  ring

/-- Rounding to `double` keeps a magnitude within a power of two that bounds it. -/
theorem to_double_abs_le (x : ℚ) (j : ℤ) (hj : 0 ≤ j) (hx : |x| ≤ (2 : ℚ) ^ j) :
    -(2 : ℚ) ^ j ≤ to_double x ∧ to_double x ≤ (2 : ℚ) ^ j := by
  rcases two_zpow_eq_int_mul_ulp x j hj hx with ⟨N, hN⟩
  have h := abs_le.mp hx
  constructor
  · exact le_to_double x _ (-N) (by rw [hN]; push_cast; ring) h.1
  · exact to_double_le x _ N hN h.2

/-- Splitting a power of two at the exponent of a spacing. -/
theorem two_zpow_split (E : ℤ) (n : ℕ) :
    (2 : ℚ) ^ (E - 52 + n) = ((2 ^ n : ℤ) : ℚ) * (2 : ℚ) ^ (E - 52) := by
  push_cast
  rw [← zpow_natCast, ← zpow_add₀ (two_ne_zero)]
  congr 1
  ring

/-- Rounding to `double` is monotone on positive values. -/
theorem to_double_mono_of_pos (x y : ℚ) (hx : 0 < x) (h : x ≤ y) :
    to_double x ≤ to_double y := by
  have hy : 0 < y := lt_of_lt_of_le hx h
  have hlog : Int.log 2 |x| ≤ Int.log 2 |y| := by
    rw [abs_of_pos hx, abs_of_pos hy]
    exact Int.log_mono_right hx h
  have hE : max (Int.log 2 |x|) (-1022) ≤ max (Int.log 2 |y|) (-1022) :=
    max_le_max hlog (le_refl _)
  rcases eq_or_lt_of_le hE with heq | hlt
  · have hu : double_ulp x = double_ulp y := by unfold double_ulp; rw [heq]
    have hpos := double_ulp_pos y
    unfold to_double
    rw [hu]
    have h1 : x / double_ulp y ≤ y / double_ulp y := div_le_div_of_nonneg_right h (le_of_lt hpos)
    have h2 := round_half_even_mono _ _ h1
    exact mul_le_mul_of_nonneg_right (by exact_mod_cast h2) (le_of_lt hpos)
  · have hEy : max (Int.log 2 |y|) (-1022) = Int.log 2 |y| := by
      apply max_eq_left
      have := le_max_right (Int.log 2 |x|) (-1022)
      omega
    have hxlt : x < (2 : ℚ) ^ (Int.log 2 |x| + 1) := by
      have := Int.lt_zpow_succ_log_self (b := 2) one_lt_two x
      rw [abs_of_pos hx]
      simpa using this
    have hx2 : x ≤ (2 : ℚ) ^ (max (Int.log 2 |x|) (-1022) - 52 + (53 : ℕ)) := by
      refine le_trans (le_of_lt hxlt) (zpow_le_zpow_right₀ one_le_two ?_)
      have := le_max_left (Int.log 2 |x|) (-1022)
      push_cast
      omega
    have h1 : to_double x ≤ (2 : ℚ) ^ (max (Int.log 2 |x|) (-1022) - 52 + (53 : ℕ)) :=
      to_double_le x _ (2 ^ 53) (two_zpow_split _ 53) hx2
    have hyge : (2 : ℚ) ^ (Int.log 2 |y|) ≤ y := by
      have := Int.zpow_log_le_self (b := 2) one_lt_two hy
      rw [abs_of_pos hy]
      simpa using this
    have hy2 : (2 : ℚ) ^ (max (Int.log 2 |y|) (-1022) - 52 + (52 : ℕ)) ≤ y := by
      refine le_trans (le_of_eq ?_) hyge
      rw [hEy]
      congr 1
      push_cast
      ring
    have h2 : (2 : ℚ) ^ (max (Int.log 2 |y|) (-1022) - 52 + (52 : ℕ)) ≤ to_double y :=
      le_to_double y _ (2 ^ 52) (two_zpow_split _ 52) hy2
    refine le_trans h1 (le_trans (zpow_le_zpow_right₀ one_le_two ?_) h2)
    push_cast
    omega

/-- A value of at least 1 rounds to a positive `double`. -/
theorem to_double_pos_of_one_le (x : ℚ) (h : 1 ≤ x) : 0 < to_double x := by
  have hx : 0 < x := lt_of_lt_of_le one_pos h
  have hlog : 0 ≤ Int.log 2 |x| := by
    rw [abs_of_pos hx]
    have := Int.log_mono_right (b := 2) one_pos h
    rwa [Int.log_one_right] at this
  have hE : max (Int.log 2 |x|) (-1022) = Int.log 2 |x| := max_eq_left (by omega)
  have hxge : (2 : ℚ) ^ (Int.log 2 |x|) ≤ x := by
    have := Int.zpow_log_le_self (b := 2) one_lt_two hx
    rw [abs_of_pos hx]
    simpa using this
  have hx2 : (2 : ℚ) ^ (max (Int.log 2 |x|) (-1022) - 52 + (52 : ℕ)) ≤ x := by
    refine le_trans (le_of_eq ?_) hxge
    rw [hE]
    congr 1
    push_cast
    ring
  have h2 := le_to_double x _ (2 ^ 52) (two_zpow_split _ 52) hx2
  exact lt_of_lt_of_le (by positivity) h2

/-- The spacing around a value whose binary exponent is known. -/
theorem double_ulp_eq (x : ℚ) (e : ℤ) (he : -1022 ≤ e) (h1 : (2 : ℚ) ^ e ≤ |x|)
    (h2 : |x| < (2 : ℚ) ^ (e + 1)) : double_ulp x = (2 : ℚ) ^ (e - 52) := by
  have hpos : 0 < |x| := lt_of_lt_of_le (by positivity) h1
  have hlog : Int.log 2 |x| = e := by
    apply le_antisymm
    · have := (Int.lt_zpow_iff_log_lt (b := 2) one_lt_two hpos).mp (by simpa using h2)
      omega
    · exact (Int.zpow_le_iff_le_log (b := 2) one_lt_two hpos).mp (by simpa using h1)
  unfold double_ulp
  rw [hlog, max_eq_left he]

/-- A multiple of the spacing around it is a `double`: it rounds to itself. -/
theorem to_double_of_int_mul (x : ℚ) (z : ℤ) (h : x = (z : ℚ) * double_ulp x) :
    to_double x = x := by
  have hu := double_ulp_pos x
  have h1 : x / double_ulp x = (z : ℚ) := by
    rw [div_eq_iff (ne_of_gt hu)]; exact h
  unfold to_double
  rw [h1, round_half_even_intCast, ← h]

/-- Halfway above an odd integer the rounding goes up, to the even one. -/
theorem round_half_even_tie_odd (z : ℤ) (hz : z % 2 = 1) :
    round_half_even ((z : ℚ) + 1 / 2) = z + 1 := by
  have hf : ⌊(z : ℚ) + 1 / 2⌋ = z := by
    rw [Int.floor_eq_iff]
    constructor <;> norm_num
  unfold round_half_even
  rw [hf]
  have hz0 : ¬ z % 2 = 0 := by omega
  norm_num [hz0]

/-- The integer 32767 is a `double`. -/
theorem to_double_32767 : to_double 32767 = 32767 := by
  have hu : double_ulp 32767 = (2 : ℚ) ^ ((14 : ℤ) - 52) :=
    double_ulp_eq _ 14 (by norm_num) (by norm_num [abs_of_pos]) (by norm_num [abs_of_pos])
  exact to_double_of_int_mul _ (32767 * 2 ^ 38) (by rw [hu]; norm_num)

/-- The number 1 is a `double`. -/
theorem to_double_one : to_double 1 = 1 := by
  have hu : double_ulp 1 = (2 : ℚ) ^ ((0 : ℤ) - 52) :=
    double_ulp_eq _ 0 (by norm_num) (by norm_num) (by norm_num)
  exact to_double_of_int_mul _ (2 ^ 52) (by rw [hu]; norm_num)

/-- The number 2 is a `double`. -/
theorem to_double_two : to_double 2 = 2 := by
  have hu : double_ulp 2 = (2 : ℚ) ^ ((1 : ℤ) - 52) :=
    double_ulp_eq _ 1 (by norm_num) (by norm_num) (by norm_num)
  exact to_double_of_int_mul _ (2 ^ 52) (by rw [hu]; norm_num)

/-- The number `2 ^ 53 + 2` is a `double`. -/
theorem to_double_bigCurrent : to_double 9007199254740994 = 9007199254740994 := by
  have hu : double_ulp 9007199254740994 = (2 : ℚ) ^ ((53 : ℤ) - 52) :=
    double_ulp_eq _ 53 (by norm_num) (by norm_num [abs_of_pos]) (by norm_num [abs_of_pos])
  exact to_double_of_int_mul _ 4503599627370497 (by rw [hu]; norm_num)

/-- The number `2 ^ 53 + 3` lies halfway between two `double` values and rounds to `2 ^ 53 + 4`. -/
theorem to_double_bigCurrent_succ : to_double 9007199254740995 = 9007199254740996 := by
  have hu : double_ulp 9007199254740995 = (2 : ℚ) ^ ((53 : ℤ) - 52) :=
    double_ulp_eq _ 53 (by norm_num) (by norm_num [abs_of_pos]) (by norm_num [abs_of_pos])
  have hm : (9007199254740995 : ℚ) / (2 : ℚ) ^ ((53 : ℤ) - 52) =
      ((4503599627370497 : ℤ) : ℚ) + 1 / 2 := by norm_num
  unfold to_double
  rw [hu, hm, round_half_even_tie_odd _ (by decide)]
  norm_num

/-- Rounding to `double` is monotone on values that are not negative. -/
theorem to_double_mono_of_nonneg (x y : ℚ) (hx : 0 ≤ x) (h : x ≤ y) :
    to_double x ≤ to_double y := by
  rcases eq_or_lt_of_le hx with h0 | hpos
  · have hz : to_double x ≤ 0 := to_double_le x 0 0 (by simp) (by rw [← h0])
    exact le_trans hz (to_double_nonneg y (le_trans hx h))
  · exact to_double_mono_of_pos x y hpos h

/-- The perturbation of `Normal1dPDF::candidate_proposal` lies between -1 and 1, for
every value `r` up to `RAND_MAX`. -/
theorem perturbation_of_bounds {W : Type} (L : Stdlib W) (r : Nat) (hr : r ≤ L.RAND_MAX) :
    -1 ≤ perturbation_of L r ∧ perturbation_of L r ≤ 1 := by
  have hRM : (1 : ℚ) ≤ (L.RAND_MAX : ℚ) := by
    have h := L.RAND_MAX_ge
    exact_mod_cast (by omega : 1 ≤ L.RAND_MAX)
  have hb : 0 < to_double (L.RAND_MAX : ℚ) := to_double_pos_of_one_le _ hRM
  have ha : 0 ≤ to_double (r : ℚ) := to_double_nonneg _ (Nat.cast_nonneg r)
  have hab : to_double (r : ℚ) ≤ to_double (L.RAND_MAX : ℚ) :=
    to_double_mono_of_nonneg _ _ (Nat.cast_nonneg r) (by exact_mod_cast hr)
  have hq0 : 0 ≤ to_double (r : ℚ) / to_double (L.RAND_MAX : ℚ) := div_nonneg ha (le_of_lt hb)
  have hq1 : to_double (r : ℚ) / to_double (L.RAND_MAX : ℚ) ≤ 1 := (div_le_one hb).mpr hab
  have h1n := to_double_nonneg _ hq0
  have h1 := (to_double_abs_le _ 0 (le_refl 0)
    (by rw [abs_of_nonneg hq0]; simpa using hq1)).2
  rw [zpow_zero] at h1
  have hm0 : 0 ≤ to_double (to_double (r : ℚ) / to_double (L.RAND_MAX : ℚ)) * 2 := by
    linarith
  have h2n := to_double_nonneg _ hm0
  have h2 := (to_double_abs_le _ 1 (by norm_num)
    (by rw [abs_of_nonneg hm0]; norm_num; linarith)).2
  rw [zpow_one] at h2
  have h3 := to_double_abs_le
    (to_double (to_double (to_double (r : ℚ) / to_double (L.RAND_MAX : ℚ)) * 2) - 1) 0
    (le_refl 0) (by rw [zpow_zero, abs_le]; constructor <;> linarith)
  rw [zpow_zero] at h3
  exact h3

/-- When `rand()` returns `RAND_MAX = 32767` the perturbation is exactly 1. -/
theorem perturbation_of_counterLib_max : perturbation_of counterLib 32767 = 1 := by
  unfold perturbation_of
  have hc : ((32767 : ℕ) : ℚ) = 32767 := by norm_num
  have hm : (counterLib.RAND_MAX : ℚ) = 32767 := by norm_num [counterLib]
  have h1 : (32767 : ℚ) / 32767 = 1 := by norm_num
  have h2 : (1 : ℚ) * 2 = 2 := by norm_num
  have h3 : (2 : ℚ) - 1 = 1 := by norm_num
  rw [hc, hm, to_double_32767, h1, to_double_one, h2, to_double_two, h3, to_double_one]

/-! ## Construction -/

/-- C1: the two-argument constructor throws `invalid_argument` exactly when
`thinning < 0`; when it throws, the state is left as it was (no call on the density has
been logged), and when it does not, the only call logged is `valid_candidate`. -/
theorem new_throws_iff_negative {element W : Type} (p : PDF element W) (thinning : Int)
    (m : Machine element W) :
    ((∃ e, (MetropolisSampling.new p thinning m).1 = Except.error e) ↔ thinning < 0) ∧
    ((∃ what, (MetropolisSampling.new p thinning m).1 =
        Except.error (Exception.invalid_argument what)) ↔ thinning < 0) ∧
    (MetropolisSampling.new p thinning m).2 =
      (if thinning < 0 then m else m.log Call.valid_candidate) := by
  unfold MetropolisSampling.new
  by_cases h : thinning < 0
  · simp [h]
  · simp [h]

/-- C2: for `thinning >= 0` the two-argument constructor builds the sampler whose chain
value is `p.valid_candidate()` and whose interval is `thinning`; the only call it logs is
`valid_candidate`, so there is no `candidate_proposal`, `probability` or `rand()` call,
and the hidden state is untouched.  The one-argument constructor does the same with
interval 0. -/
theorem new_builds_seed_state {element W : Type} (p : PDF element W) (thinning : Int)
    (m : Machine element W) (h : 0 ≤ thinning) :
    MetropolisSampling.new p thinning m =
      (Except.ok { pdf := p, actual := p.valid_candidate, k := thinning },
        { world := m.world, calls := m.calls ++ [Call.valid_candidate] }) ∧
    MetropolisSampling.new_default p m =
      ({ pdf := p, actual := p.valid_candidate, k := 0 },
        { world := m.world, calls := m.calls ++ [Call.valid_candidate] }) ∧
    proposal_calls (MetropolisSampling.new p thinning m).2.calls = proposal_calls m.calls ∧
    probability_calls (MetropolisSampling.new p thinning m).2.calls =
      probability_calls m.calls ∧
    rand_calls (MetropolisSampling.new p thinning m).2.calls = rand_calls m.calls := by
  have hn : ¬ thinning < 0 := not_lt.mpr h
  simp [MetropolisSampling.new, MetropolisSampling.new_default, Machine.log, hn,
    proposal_calls, probability_calls, rand_calls]

/-- Witness of C2 at thinning 3 over the flat density. -/
theorem new_builds_seed_state_witness :
    (0 : Int) ≤ 3 ∧
    MetropolisSampling.new flatPDF 3 startMachine =
      (Except.ok { pdf := flatPDF, actual := flatPDF.valid_candidate, k := 3 },
        { world := startMachine.world,
          calls := startMachine.calls ++ [Call.valid_candidate] }) :=
  ⟨by decide, (new_builds_seed_state flatPDF 3 startMachine (by decide)).1⟩

/-- C3: the one-argument constructor leaves exactly the object and state that the
two-argument constructor leaves for thinning 0 (chain value `p.valid_candidate()`,
interval 0), so any number of `get_next_sample()` calls gives the same values, objects
and states from both. -/
theorem new_default_eq_new_zero {element W : Type} (p : PDF element W)
    (m : Machine element W) :
    ∃ s2 m2, MetropolisSampling.new p 0 m = (Except.ok s2, m2) ∧
      MetropolisSampling.new_default p m = (s2, m2) ∧
      s2.k = 0 ∧ s2.actual = p.valid_candidate ∧
      ∀ (L : Stdlib W) (n : Nat),
        get_samples L n s2 m2 =
          get_samples L n (MetropolisSampling.new_default p m).1
            (MetropolisSampling.new_default p m).2 :=
  ⟨{ pdf := p, actual := p.valid_candidate, k := 0 }, m.log Call.valid_candidate,
    by simp [MetropolisSampling.new], rfl, rfl, rfl, fun _ _ => rfl⟩

/-! ## One call of `get_next_sample` -/

/-- C5: for an interval `k >= 0` one call of `get_next_sample` makes exactly `k + 1`
calls of `candidate_proposal` (one when `k = 0`), and the `i`-th of them is applied to
the chain value reached after `i` accept/reject steps of that call. -/
theorem get_next_sample_proposal_calls {element W : Type} (L : Stdlib W)
    (s : MetropolisSampling element W) (m : Machine element W) (hk : 0 ≤ s.k) :
    ((proposal_calls (get_next_sample L s m).2.2.calls : Int) =
      (proposal_calls m.calls : Int) + (s.k + 1)) ∧
    (s.k = 0 →
      proposal_calls (get_next_sample L s m).2.2.calls = proposal_calls m.calls + 1) ∧
    proposal_args (get_next_sample L s m).2.2.calls =
      proposal_args m.calls ++
        (List.range (s.k.toNat + 1)).map (fun i => (run_loop L i s m).1.actual) := by
  rw [get_next_sample_eq_loop]
  refine ⟨?_, ?_, run_loop_proposal_args L _ s m⟩
  · rw [run_loop_proposal_calls]
    push_cast
    rw [Int.toNat_of_nonneg hk]
  · intro h0
    rw [run_loop_proposal_calls, h0]
    rfl

/-- Witness of C5 at thinning 2 over the flat density. -/
theorem get_next_sample_proposal_calls_witness :
    (0 : Int) ≤ flatSampler.k ∧
    ((proposal_calls (get_next_sample counterLib flatSampler startMachine).2.2.calls : Int) =
      (proposal_calls startMachine.calls : Int) + (flatSampler.k + 1)) :=
  ⟨by decide,
    (get_next_sample_proposal_calls counterLib flatSampler startMachine (by decide)).1⟩

/-- C6, as stated, fails: with thinning 0 one call of `get_next_sample` over the flat
density logs 2 calls of `probability` (one on the candidate, one on the current value),
not 1. -/
theorem probability_calls_no_thinning_is_two :
    flatSampler0.k = 0 ∧ probability_calls startMachine.calls = 0 ∧
    probability_calls (get_next_sample counterLib flatSampler0 startMachine).2.2.calls = 2 ∧
    ¬ (probability_calls (get_next_sample counterLib flatSampler0 startMachine).2.2.calls =
        probability_calls startMachine.calls + 1) := by
  have h : probability_calls
      (get_next_sample counterLib flatSampler0 startMachine).2.2.calls = 2 := by
    rw [get_next_sample_eq_loop, run_loop_probability_calls]
    rfl
  refine ⟨rfl, rfl, h, ?_⟩
  rw [h]
  decide

/-- C6, amended: for an interval `k >= 0` one call of `get_next_sample` makes exactly
`2 * (k + 1)` calls of `probability`, two in each accept/reject step, whatever `rand()`
returns and whichever candidates are accepted: 2 when `k = 0`. -/
theorem get_next_sample_probability_calls {element W : Type} (L : Stdlib W)
    (s : MetropolisSampling element W) (m : Machine element W) (hk : 0 ≤ s.k) :
    ((probability_calls (get_next_sample L s m).2.2.calls : Int) =
      (probability_calls m.calls : Int) + 2 * (s.k + 1)) ∧
    (s.k = 0 →
      probability_calls (get_next_sample L s m).2.2.calls = probability_calls m.calls + 2) := by
  rw [get_next_sample_eq_loop, run_loop_probability_calls]
  constructor
  · push_cast
    rw [Int.toNat_of_nonneg hk]
  · intro h0
    rw [h0]
    rfl

/-- Witness of the amended C6 at thinning 2 over the flat density. -/
theorem get_next_sample_probability_calls_witness :
    (0 : Int) ≤ flatSampler.k ∧
    ((probability_calls (get_next_sample counterLib flatSampler startMachine).2.2.calls : Int) =
      (probability_calls startMachine.calls : Int) + 2 * (flatSampler.k + 1)) :=
  ⟨by decide,
    (get_next_sample_probability_calls counterLib flatSampler startMachine (by decide)).1⟩

/-- C7: under a density with the same positive value `c` everywhere and an interval
`k >= 0`, every quotient `alpha` is exactly 1, every step of the call accepts its
candidate, the call makes `k + 1` proposals and `get_next_sample` returns the candidate
proposed in the last (the `k + 1`-th) of them, the sampler makes no `rand()` call, and the whole outcome is the same for any
`rand()`. -/
theorem constant_density_returns_last_proposal {element W : Type} (L : Stdlib W)
    (s : MetropolisSampling element W) (m : Machine element W) (c : ℚ) (hc : 0 < c)
    (hconst : ∀ x, s.pdf.probability x = c) (hk : 0 ≤ s.k) :
    (∀ x y, fdiv (s.pdf.probability x) (s.pdf.probability y) = Alpha.finite 1) ∧
    (∀ i, i ≤ s.k.toNat →
      (run_loop L (i + 1) s m).1.actual =
        (s.pdf.candidate_proposal (run_loop L i s m).1.actual
          (run_loop L i s m).2.world).1) ∧
    (get_next_sample L s m).1 =
      (s.pdf.candidate_proposal (run L s s.k m).1.actual (run L s s.k m).2.world).1 ∧
    ((proposal_calls (get_next_sample L s m).2.2.calls : Int) =
      (proposal_calls m.calls : Int) + (s.k + 1)) ∧
    (get_next_sample L s m).2.1.actual = (get_next_sample L s m).1 ∧
    rand_calls (get_next_sample L s m).2.2.calls = rand_calls m.calls ∧
    (∀ L2 : Stdlib W, get_next_sample L2 s m = get_next_sample L s m) := by
  have hacc : ∀ i, (run_loop L (i + 1) s m).1.actual =
      (s.pdf.candidate_proposal (run_loop L i s m).1.actual
        (run_loop L i s m).2.world).1 := by
    intro i
    have h1 : ∀ x, (run_loop L i s m).1.pdf.probability x = c := by
      rw [run_loop_pdf]; exact hconst
    rw [run_loop_succ, run_body_of_constant L _ _ c hc h1, run_loop_pdf]
  refine ⟨?_, fun i _ => hacc i, ?_, ?_, ?_, ?_, ?_⟩
  · intro x y
    rw [hconst x, hconst y, fdiv_of_pos c c hc, div_self (ne_of_gt hc)]
  · rw [get_next_sample_eq_loop]
    exact hacc s.k.toNat
  · rw [get_next_sample_eq_loop, run_loop_proposal_calls]
    push_cast
    rw [Int.toNat_of_nonneg hk]
  · rw [get_next_sample_eq_loop]
  · rw [get_next_sample_eq_loop]
    exact run_loop_rand_calls_of_constant L c hc _ s m hconst
  · intro L2
    rw [get_next_sample_eq_loop, get_next_sample_eq_loop,
      run_loop_of_constant L L2 c hc _ s m hconst]

/-- Witness of C7 at thinning 2 over the flat density. -/
theorem constant_density_returns_last_proposal_witness :
    (0 : ℚ) < 1 ∧ (∀ x, flatSampler.pdf.probability x = 1) ∧ (0 : Int) ≤ flatSampler.k ∧
    (get_next_sample counterLib flatSampler startMachine).1 =
      (flatSampler.pdf.candidate_proposal
        (run counterLib flatSampler flatSampler.k startMachine).1.actual
        (run counterLib flatSampler flatSampler.k startMachine).2.world).1 :=
  ⟨one_pos, fun _ => rfl, by decide,
    (constant_density_returns_last_proposal counterLib flatSampler startMachine 1 one_pos
      (fun _ => rfl) (by decide)).2.2.1⟩

/-- C8: under a density that is positive at `valid_candidate()` and 0 at every other
value, for an interval `thinning >= 0` the sampler is built, each of the first `n` calls
of `get_next_sample` returns `valid_candidate()`, for every `n`, and the chain value
stays there: a candidate other than the initial value has `alpha = 0` and is rejected. -/
theorem point_density_returns_seed {element W : Type} (L : Stdlib W) (p : PDF element W)
    (thinning : Int) (m : Machine element W) (n : Nat) (hk : 0 ≤ thinning)
    (hpos : 0 < p.probability p.valid_candidate)
    (hzero : ∀ x, x ≠ p.valid_candidate → p.probability x = 0) :
    ∃ s m1, MetropolisSampling.new p thinning m = (Except.ok s, m1) ∧
      (get_samples L n s m1).1 = List.replicate n p.valid_candidate ∧
      (get_samples L n s m1).2.1.actual = p.valid_candidate ∧
      (∀ x, x ≠ p.valid_candidate →
        fdiv (p.probability x) (p.probability p.valid_candidate) = Alpha.finite 0) := by
  refine ⟨{ pdf := p, actual := p.valid_candidate, k := thinning },
    m.log Call.valid_candidate, ?_, ?_, ?_, ?_⟩
  · simp [MetropolisSampling.new, not_lt.mpr hk]
  · have h := (get_samples_invariant L p (fun x => x = p.valid_candidate)
      (fun s1 m1 hp1 ha1 => run_body_keeps_point L s1 m1 p.valid_candidate ha1
        (by rw [hp1]; exact hpos) (by rw [hp1]; exact hzero))
      n { pdf := p, actual := p.valid_candidate, k := thinning }
      (m.log Call.valid_candidate) rfl rfl).1
    exact List.eq_replicate_iff.mpr ⟨get_samples_length L n _ _, h⟩
  · exact (get_samples_invariant L p (fun x => x = p.valid_candidate)
      (fun s1 m1 hp1 ha1 => run_body_keeps_point L s1 m1 p.valid_candidate ha1
        (by rw [hp1]; exact hpos) (by rw [hp1]; exact hzero))
      n { pdf := p, actual := p.valid_candidate, k := thinning }
      (m.log Call.valid_candidate) rfl rfl).2
  · intro x hx
    rw [hzero x hx, fdiv_of_pos _ _ hpos, zero_div]

/-- Witness of C8: three calls with thinning 1 over the point density. -/
theorem point_density_returns_seed_witness :
    (0 : Int) ≤ 1 ∧ 0 < pointPDF.probability pointPDF.valid_candidate ∧
    (∀ x, x ≠ pointPDF.valid_candidate → pointPDF.probability x = 0) ∧
    ∃ s m1, MetropolisSampling.new pointPDF 1 startMachine = (Except.ok s, m1) ∧
      (get_samples counterLib 3 s m1).1 = List.replicate 3 pointPDF.valid_candidate ∧
      (get_samples counterLib 3 s m1).2.1.actual = pointPDF.valid_candidate ∧
      (∀ x, x ≠ pointPDF.valid_candidate →
        fdiv (pointPDF.probability x) (pointPDF.probability pointPDF.valid_candidate) =
          Alpha.finite 0) :=
  ⟨by decide, by simp [pointPDF], fun x hx => if_neg hx,
    point_density_returns_seed counterLib pointPDF 1 startMachine 3 (by decide)
      (by simp [pointPDF]) (fun x hx => if_neg hx)⟩

/-- C9: if the density is positive at `valid_candidate()`, then after construction with
an interval `thinning >= 0` (or by the one-argument constructor) and any number `n` of
`get_next_sample` calls the chain value has positive density, and so has every value
returned.  That the density is nowhere negative is not needed: a candidate of negative
density gives a negative `alpha`, and no `u >= 0` is below it. -/
theorem chain_value_positive {element W : Type} (L : Stdlib W) (p : PDF element W)
    (thinning : Int) (m : Machine element W) (n : Nat) (hk : 0 ≤ thinning)
    (hpos : 0 < p.probability p.valid_candidate) :
    (∃ s m1, MetropolisSampling.new p thinning m = (Except.ok s, m1) ∧
      0 < p.probability s.actual ∧
      0 < p.probability (get_samples L n s m1).2.1.actual ∧
      ∀ x ∈ (get_samples L n s m1).1, 0 < p.probability x) ∧
    (0 < p.probability (MetropolisSampling.new_default p m).1.actual ∧
      0 < p.probability
        (get_samples L n (MetropolisSampling.new_default p m).1
          (MetropolisSampling.new_default p m).2).2.1.actual ∧
      ∀ x ∈ (get_samples L n (MetropolisSampling.new_default p m).1
          (MetropolisSampling.new_default p m).2).1, 0 < p.probability x) := by
  have hstep : ∀ (s : MetropolisSampling element W) (m : Machine element W),
      s.pdf = p → 0 < p.probability s.actual →
        0 < p.probability (run_body L s m).1.actual := by
    intro s1 m1 hp1 h1
    have h2 := run_body_keeps_positive L s1 m1 (by rw [hp1]; exact h1)
    rw [hp1] at h2
    exact h2
  constructor
  · have h := get_samples_invariant L p (fun x => 0 < p.probability x) hstep n
      { pdf := p, actual := p.valid_candidate, k := thinning }
      (m.log Call.valid_candidate) rfl hpos
    exact ⟨{ pdf := p, actual := p.valid_candidate, k := thinning },
      m.log Call.valid_candidate, by simp [MetropolisSampling.new, not_lt.mpr hk],
      hpos, h.2, h.1⟩
  · have h := get_samples_invariant L p (fun x => 0 < p.probability x) hstep n
      (MetropolisSampling.new_default p m).1 (MetropolisSampling.new_default p m).2
      rfl hpos
    exact ⟨hpos, h.2, h.1⟩

/-- Witness of C9: five calls with thinning 2 over the peaked density. -/
theorem chain_value_positive_witness :
    (0 : Int) ≤ 2 ∧ 0 < peakPDF.probability peakPDF.valid_candidate ∧
    ∃ s m1, MetropolisSampling.new peakPDF 2 startMachine = (Except.ok s, m1) ∧
      0 < peakPDF.probability s.actual ∧
      0 < peakPDF.probability (get_samples counterLib 5 s m1).2.1.actual ∧
      ∀ x ∈ (get_samples counterLib 5 s m1).1, 0 < peakPDF.probability x :=
  ⟨by decide, by simp [peakPDF],
    (chain_value_positive counterLib peakPDF 2 startMachine 5 (by decide)
      (by simp [peakPDF])).1⟩

/-- C10: for an interval `k >= 0`, `get_next_sample` is `run(k)` followed by one more
execution of the loop body of `run`; it leaves the object and state that `run(k + 1)`
leaves, and returns the chain value of that object. -/
theorem get_next_sample_eq_run_succ {element W : Type} (L : Stdlib W)
    (s : MetropolisSampling element W) (m : Machine element W) (hk : 0 ≤ s.k) :
    get_next_sample L s m =
      ((run_body L (run L s s.k m).1 (run L s s.k m).2).1.actual,
        run_body L (run L s s.k m).1 (run L s s.k m).2) ∧
    run L s (s.k + 1) m = run_body L (run L s s.k m).1 (run L s s.k m).2 ∧
    get_next_sample L s m = ((run L s (s.k + 1) m).1.actual, run L s (s.k + 1) m) := by
  have h1 : (s.k + 1).toNat = s.k.toNat + 1 := by omega
  have h2 : run L s (s.k + 1) m = run_body L (run L s s.k m).1 (run L s s.k m).2 := by
    unfold run
    rw [h1, run_loop_succ]
  exact ⟨get_next_sample_eq_body L s m, h2, by rw [h2]; exact get_next_sample_eq_body L s m⟩

/-- Witness of C10 at thinning 2 over the flat density. -/
theorem get_next_sample_eq_run_succ_witness :
    (0 : Int) ≤ flatSampler.k ∧
    get_next_sample counterLib flatSampler startMachine =
      ((run counterLib flatSampler (flatSampler.k + 1) startMachine).1.actual,
        run counterLib flatSampler (flatSampler.k + 1) startMachine) :=
  ⟨by decide,
    (get_next_sample_eq_run_succ counterLib flatSampler startMachine (by decide)).2.2⟩

/-! ## The uniform number and the `rand()` calls of the sampler -/

/-- C12, as stated, fails: at the counter state 32767 `rand()` returns `RAND_MAX`, the
number `u = rand() / RAND_MAX` the sampler then compares with `alpha` is exactly 1, not
below 1, and the sampler does draw it there (one `rand()` call is logged). -/
theorem uniform_of_rand_max_is_one :
    (counterLib.rand endMachine.world).1 = counterLib.RAND_MAX ∧
    uniform_of counterLib (counterLib.rand endMachine.world).1 = 1 ∧
    ¬ (uniform_of counterLib (counterLib.rand endMachine.world).1 < 1) ∧
    rand_calls (get_next_sample counterLib peakSampler endMachine).2.2.calls = 1 := by
  have h1 : (counterLib.rand endMachine.world).1 = counterLib.RAND_MAX := by decide
  have h2 : uniform_of counterLib (counterLib.rand endMachine.world).1 = 1 := by
    rw [h1]
    norm_num [uniform_of, counterLib]
  refine ⟨h1, h2, by rw [h2]; exact lt_irrefl 1, ?_⟩
  have h0 : step_alpha counterLib peakSampler endMachine 0 = Alpha.finite (1 / 2) := by
    norm_num [step_alpha, body_alpha, run_loop, peakSampler, peakPDF, fdiv]
  have hk : peakSampler.k.toNat + 1 = 1 := rfl
  rw [get_next_sample_eq_loop, run_loop_rand_calls, hk]
  have hr : List.range 1 = [0] := rfl
  rw [hr]
  simp only [List.filter, h0]
  norm_num [Alpha.ge_one, rand_calls, endMachine]

/-- C12, amended: the number `u = rand() / RAND_MAX` drawn for an accept/reject decision
lies in the closed interval from 0 to 1; it is 1 exactly when `rand()` returns
`RAND_MAX`, and below 1 for every smaller value.  It is the number the decision of the
loop body is taken on. -/
theorem uniform_draw_in_closed_unit {element W : Type} (L : Stdlib W)
    (s : MetropolisSampling element W) (m : Machine element W) (w : W) :
    0 ≤ uniform_of L (L.rand w).1 ∧ uniform_of L (L.rand w).1 ≤ 1 ∧
    (uniform_of L (L.rand w).1 = 1 ↔ (L.rand w).1 = L.RAND_MAX) ∧
    ((L.rand w).1 < L.RAND_MAX → uniform_of L (L.rand w).1 < 1) ∧
    (run_body L s m).1 =
      (if accepts (s.pdf.probability (s.pdf.candidate_proposal s.actual m.world).1)
          (s.pdf.probability s.actual)
          (uniform_of L (L.rand (s.pdf.candidate_proposal s.actual m.world).2).1) then
        { s with actual := (s.pdf.candidate_proposal s.actual m.world).1 }
      else s) := by
  have h := uniform_of_bounds L (L.rand w).1 (L.rand_le w)
  refine ⟨h.1, h.2.1, h.2.2, ?_, run_body_fst_eq_accepts L s m⟩
  intro hlt
  exact lt_of_le_of_ne h.2.1 (fun heq => (ne_of_lt hlt) (h.2.2.mp heq))

/-- C13: in every accept/reject step, when `alpha >= 1` the candidate is stored without
any `rand()` call of the sampler (the hidden state is the one the proposal left), and
when `alpha < 1` the sampler calls `rand()` exactly once.  For a density that is positive
at `valid_candidate()`, after construction with an interval `thinning >= 0` and any
number `n` of calls, every step has `alpha >= 1` or `alpha < 1`, and the next
`get_next_sample` call makes as many `rand()` calls as it has steps with `alpha < 1`, at
most `thinning + 1`. -/
theorem rand_calls_count_steps_below_one {element W : Type} (L : Stdlib W)
    (p : PDF element W) (thinning : Int) (m : Machine element W) (n : Nat)
    (hk : 0 ≤ thinning) (hpos : 0 < p.probability p.valid_candidate) :
    (∀ (s1 : MetropolisSampling element W) (m1 : Machine element W),
      (body_alpha s1 m1).ge_one = true →
        run_body L s1 m1 =
          ({ s1 with actual := (s1.pdf.candidate_proposal s1.actual m1.world).1 },
            { world := (s1.pdf.candidate_proposal s1.actual m1.world).2,
              calls := m1.calls ++ [Call.candidate_proposal s1.actual] ++
                [Call.probability (s1.pdf.candidate_proposal s1.actual m1.world).1,
                  Call.probability s1.actual] })) ∧
    (∀ (s1 : MetropolisSampling element W) (m1 : Machine element W),
      (body_alpha s1 m1).lt_one = true →
        (run_body L s1 m1).2 =
          { world := (L.rand (s1.pdf.candidate_proposal s1.actual m1.world).2).2,
            calls := m1.calls ++ [Call.candidate_proposal s1.actual] ++
              [Call.probability (s1.pdf.candidate_proposal s1.actual m1.world).1,
                Call.probability s1.actual] ++ [Call.rand] }) ∧
    ∃ s m1, MetropolisSampling.new p thinning m = (Except.ok s, m1) ∧
      (∀ i, (step_alpha L (get_samples L n s m1).2.1 (get_samples L n s m1).2.2 i).ge_one
          = true ∨
        (step_alpha L (get_samples L n s m1).2.1 (get_samples L n s m1).2.2 i).lt_one
          = true) ∧
      rand_calls
          (get_next_sample L (get_samples L n s m1).2.1 (get_samples L n s m1).2.2).2.2.calls =
        rand_calls (get_samples L n s m1).2.2.calls +
          ((List.range (thinning.toNat + 1)).filter
            (fun i => (step_alpha L (get_samples L n s m1).2.1
              (get_samples L n s m1).2.2 i).lt_one)).length ∧
      ((rand_calls
          (get_next_sample L (get_samples L n s m1).2.1
            (get_samples L n s m1).2.2).2.2.calls : Int) ≤
        (rand_calls (get_samples L n s m1).2.2.calls : Int) + (thinning + 1)) := by
  have hs := (get_samples_invariant L p (fun x => 0 < p.probability x)
    (fun s1 m1 hp1 h1 => run_body_keeps_positive_of_pdf L p s1 m1 hp1 h1) n
    { pdf := p, actual := p.valid_candidate, k := thinning }
    (m.log Call.valid_candidate) rfl hpos).2
  have hf := get_samples_frame L n { pdf := p, actual := p.valid_candidate, k := thinning }
    (m.log Call.valid_candidate)
  have hpos2 : 0 < (get_samples L n { pdf := p, actual := p.valid_candidate, k := thinning }
      (m.log Call.valid_candidate)).2.1.pdf.probability
      (get_samples L n { pdf := p, actual := p.valid_candidate, k := thinning }
        (m.log Call.valid_candidate)).2.1.actual := by
    rw [hf.1]
    exact hs
  have hcount := get_next_sample_rand_calls_of_pos L _
    (get_samples L n { pdf := p, actual := p.valid_candidate, k := thinning }
      (m.log Call.valid_candidate)).2.2 hpos2
  rw [hf.2] at hcount
  dsimp only at hcount
  refine ⟨fun s1 m1 h => run_body_of_ge_one L s1 m1 h,
    fun s1 m1 h => run_body_of_not_ge_one L s1 m1 (ge_one_of_lt_one _ h),
    { pdf := p, actual := p.valid_candidate, k := thinning }, m.log Call.valid_candidate,
    by simp [MetropolisSampling.new, not_lt.mpr hk], ?_, hcount, ?_⟩
  · intro i
    exact ge_one_or_lt_one_of_finite _ (step_alpha_finite_of_pos L _ _ i hpos2)
  · have hle := List.length_filter_le
      (fun i => (step_alpha L
        (get_samples L n { pdf := p, actual := p.valid_candidate, k := thinning }
          (m.log Call.valid_candidate)).2.1
        (get_samples L n { pdf := p, actual := p.valid_candidate, k := thinning }
          (m.log Call.valid_candidate)).2.2 i).lt_one)
      (List.range (thinning.toNat + 1))
    rw [List.length_range] at hle
    rw [hcount]
    have hkn : ((thinning.toNat : Nat) : Int) = thinning := Int.toNat_of_nonneg hk
    omega

/-- Witness of C13: the call after three calls with thinning 2 over the peaked density. -/
theorem rand_calls_count_steps_below_one_witness :
    (0 : Int) ≤ 2 ∧ 0 < peakPDF.probability peakPDF.valid_candidate ∧
    ∃ s m1, MetropolisSampling.new peakPDF 2 startMachine = (Except.ok s, m1) ∧
      (∀ i, (step_alpha counterLib (get_samples counterLib 3 s m1).2.1
          (get_samples counterLib 3 s m1).2.2 i).ge_one = true ∨
        (step_alpha counterLib (get_samples counterLib 3 s m1).2.1
          (get_samples counterLib 3 s m1).2.2 i).lt_one = true) ∧
      rand_calls
          (get_next_sample counterLib (get_samples counterLib 3 s m1).2.1
            (get_samples counterLib 3 s m1).2.2).2.2.calls =
        rand_calls (get_samples counterLib 3 s m1).2.2.calls +
          ((List.range ((2 : Int).toNat + 1)).filter
            (fun i => (step_alpha counterLib (get_samples counterLib 3 s m1).2.1
              (get_samples counterLib 3 s m1).2.2 i).lt_one)).length ∧
      ((rand_calls
          (get_next_sample counterLib (get_samples counterLib 3 s m1).2.1
            (get_samples counterLib 3 s m1).2.2).2.2.calls : Int) ≤
        (rand_calls (get_samples counterLib 3 s m1).2.2.calls : Int) + (2 + 1)) :=
  ⟨by decide, by simp [peakPDF],
    (rand_calls_count_steps_below_one counterLib peakPDF 2 startMachine 3 (by decide)
      (by simp [peakPDF])).2.2⟩

/-! ## Denominators, the frame of a call, and the values returned -/

/-- C14: if the density is positive at `valid_candidate()`, then after construction with
an interval `thinning >= 0` and any number `n` of `get_next_sample` calls, every later
accept/reject step (step `i` of the steps that follow, in `run` or reported) divides by a
positive `probability(current)`; its `alpha` is a finite quotient, never the outcome of a
division by zero.  That the density is nowhere negative is not needed. -/
theorem denominator_positive {element W : Type} (L : Stdlib W) (p : PDF element W)
    (thinning : Int) (m : Machine element W) (n i : Nat) (hk : 0 ≤ thinning)
    (hpos : 0 < p.probability p.valid_candidate) :
    ∃ s m1, MetropolisSampling.new p thinning m = (Except.ok s, m1) ∧
      0 < p.probability
        (run_loop L i (get_samples L n s m1).2.1 (get_samples L n s m1).2.2).1.actual ∧
      (∃ q, step_alpha L (get_samples L n s m1).2.1 (get_samples L n s m1).2.2 i =
        Alpha.finite q) ∧
      step_alpha L (get_samples L n s m1).2.1 (get_samples L n s m1).2.2 i ≠ Alpha.nan := by
  have hs := get_samples_invariant L p (fun x => 0 < p.probability x)
    (fun s1 m1 hp1 h1 => run_body_keeps_positive_of_pdf L p s1 m1 hp1 h1) n
    { pdf := p, actual := p.valid_candidate, k := thinning }
    (m.log Call.valid_candidate) rfl hpos
  have hp : (get_samples L n { pdf := p, actual := p.valid_candidate, k := thinning }
      (m.log Call.valid_candidate)).2.1.pdf = p := (get_samples_frame L n _ _).1
  have hi := run_loop_invariant L p (fun x => 0 < p.probability x)
    (fun s1 m1 hp1 h1 => run_body_keeps_positive_of_pdf L p s1 m1 hp1 h1) i _
    (get_samples L n { pdf := p, actual := p.valid_candidate, k := thinning }
      (m.log Call.valid_candidate)).2.2 hp hs.2
  have hfin : step_alpha L
      (get_samples L n { pdf := p, actual := p.valid_candidate, k := thinning }
        (m.log Call.valid_candidate)).2.1
      (get_samples L n { pdf := p, actual := p.valid_candidate, k := thinning }
        (m.log Call.valid_candidate)).2.2 i =
      Alpha.finite (p.probability (p.candidate_proposal
        (run_loop L i (get_samples L n { pdf := p, actual := p.valid_candidate, k := thinning }
          (m.log Call.valid_candidate)).2.1
          (get_samples L n { pdf := p, actual := p.valid_candidate, k := thinning }
            (m.log Call.valid_candidate)).2.2).1.actual
        (run_loop L i (get_samples L n { pdf := p, actual := p.valid_candidate, k := thinning }
          (m.log Call.valid_candidate)).2.1
          (get_samples L n { pdf := p, actual := p.valid_candidate, k := thinning }
            (m.log Call.valid_candidate)).2.2).2.world).1 /
        p.probability
          (run_loop L i (get_samples L n { pdf := p, actual := p.valid_candidate, k := thinning }
            (m.log Call.valid_candidate)).2.1
            (get_samples L n { pdf := p, actual := p.valid_candidate, k := thinning }
              (m.log Call.valid_candidate)).2.2).1.actual) := by
    unfold step_alpha body_alpha
    rw [run_loop_pdf, hp]
    exact fdiv_of_pos _ _ hi
  refine ⟨{ pdf := p, actual := p.valid_candidate, k := thinning },
    m.log Call.valid_candidate, by simp [MetropolisSampling.new, not_lt.mpr hk], hi,
    ⟨_, hfin⟩, ?_⟩
  rw [hfin]
  exact fun h => Alpha.noConfusion h

/-- Witness of C14: step 1 after three calls with thinning 2 over the peaked density. -/
theorem denominator_positive_witness :
    (0 : Int) ≤ 2 ∧ 0 < peakPDF.probability peakPDF.valid_candidate ∧
    ∃ s m1, MetropolisSampling.new peakPDF 2 startMachine = (Except.ok s, m1) ∧
      0 < peakPDF.probability
        (run_loop counterLib 1 (get_samples counterLib 3 s m1).2.1
          (get_samples counterLib 3 s m1).2.2).1.actual ∧
      (∃ q, step_alpha counterLib (get_samples counterLib 3 s m1).2.1
        (get_samples counterLib 3 s m1).2.2 1 = Alpha.finite q) ∧
      step_alpha counterLib (get_samples counterLib 3 s m1).2.1
        (get_samples counterLib 3 s m1).2.2 1 ≠ Alpha.nan :=
  ⟨by decide, by simp [peakPDF],
    denominator_positive counterLib peakPDF 2 startMachine 3 1 (by decide)
      (by simp [peakPDF])⟩

/-- C15: a sampler that the two-argument constructor built has `k = thinning >= 0` (the
one-argument constructor gives `k = 0`); `run` and `get_next_sample`, from any object,
leave an object that differs from the one they found in the chain value only, so `k` and
the density are as they were, also after any number of calls. -/
theorem thinning_interval_immutable {element W : Type} (L : Stdlib W) (p : PDF element W)
    (thinning : Int) (m : Machine element W) (s : MetropolisSampling element W)
    (m1 : Machine element W) (n : Nat)
    (hnew : MetropolisSampling.new p thinning m = (Except.ok s, m1)) :
    0 ≤ s.k ∧ s.k = thinning ∧ s.pdf = p ∧
    (MetropolisSampling.new_default p m).1.k = 0 ∧
    (∀ (s2 : MetropolisSampling element W) (m2 : Machine element W) (iterations : Int),
      (run L s2 iterations m2).1 = { s2 with actual := (run L s2 iterations m2).1.actual }) ∧
    (∀ (s2 : MetropolisSampling element W) (m2 : Machine element W),
      (get_next_sample L s2 m2).2.1 = { s2 with actual := (get_next_sample L s2 m2).1 }) ∧
    (get_samples L n s m1).2.1.k = thinning ∧ (get_samples L n s m1).2.1.pdf = p ∧
    0 ≤ (get_samples L n s m1).2.1.k := by
  have hs : ¬ thinning < 0 ∧ s = { pdf := p, actual := p.valid_candidate, k := thinning } := by
    unfold MetropolisSampling.new at hnew
    by_cases h : thinning < 0
    · rw [if_pos h] at hnew
      exact absurd (congrArg Prod.fst hnew) (fun h2 => Except.noConfusion h2)
    · rw [if_neg h] at hnew
      have h2 := congrArg Prod.fst hnew
      exact ⟨h, (Except.ok.inj h2).symm⟩
  have hk : 0 ≤ thinning := not_lt.mp hs.1
  have hsk : s.k = thinning := by rw [hs.2]
  have hsp : s.pdf = p := by rw [hs.2]
  have hf := get_samples_frame L n s m1
  refine ⟨by rw [hsk]; exact hk, hsk, hsp, rfl, ?_, ?_, hf.2.trans hsk, hf.1.trans hsp,
    by rw [hf.2, hsk]; exact hk⟩
  · intro s2 m2 iterations
    exact run_loop_fst_eq L _ s2 m2
  · intro s2 m2
    rw [get_next_sample_eq_loop]
    exact run_loop_fst_eq L _ s2 m2

/-- Witness of C15: the sampler built over the flat density with thinning 2. -/
theorem thinning_interval_immutable_witness :
    MetropolisSampling.new flatPDF 2 startMachine =
      (Except.ok flatSampler, startMachine.log Call.valid_candidate) ∧
    (get_samples counterLib 4 flatSampler (startMachine.log Call.valid_candidate)).2.1.k = 2 :=
  ⟨rfl,
    (thinning_interval_immutable counterLib flatPDF 2 startMachine flatSampler
      (startMachine.log Call.valid_candidate) 4 rfl).2.2.2.2.2.2.1⟩

/-- C16, as stated, fails: at the `double` value `current = 2 ^ 53 + 2`, when `rand()`
returns `RAND_MAX`, the perturbation is 1 and the sum `current + 1` lies halfway between
two `double` values; `candidate_proposal` returns `current + 2`, which is not
`current + (2 * r / RAND_MAX - 1)` and is further than 1 from `current`. -/
theorem normal_proposal_moves_by_two :
    to_double bigCurrent = bigCurrent ∧
    (counterLib.rand 32767).1 = counterLib.RAND_MAX ∧
    (mainNormal.candidate_proposal counterLib bigCurrent 32767).1 = bigCurrent + 2 ∧
    (mainNormal.candidate_proposal counterLib bigCurrent 32767).1 ≠
      bigCurrent + (2 * ((counterLib.rand 32767).1 : ℚ) / (counterLib.RAND_MAX : ℚ) - 1) ∧
    ¬ (|(mainNormal.candidate_proposal counterLib bigCurrent 32767).1 - bigCurrent| ≤ 1) := by
  have hr : (counterLib.rand 32767).1 = 32767 := by decide
  have hc : (mainNormal.candidate_proposal counterLib bigCurrent 32767).1 =
      bigCurrent + 2 := by
    show to_double (bigCurrent + perturbation_of counterLib (counterLib.rand 32767).1) = _
    rw [hr, perturbation_of_counterLib_max]
    have hs : bigCurrent + 1 = 9007199254740995 := by norm_num [bigCurrent]
    rw [hs, to_double_bigCurrent_succ]
    norm_num [bigCurrent]
  refine ⟨to_double_bigCurrent, by decide, hc, ?_, ?_⟩
  · rw [hc, hr]
    norm_num [counterLib]
  · rw [hc]
    norm_num

/-- C16, amended: a sampler built over `Normal1dPDF(mean, stddev)` has its chain value
at `mean`; `candidate_proposal(current)` is the `double` sum of `current` and the
perturbation `double(r) / double(RAND_MAX) * 2 - 1` computed in `double` for the value
`r` that `rand()` returns, and that perturbation lies between -1 and 1; the candidate is
within 1 of `current` whenever the sum needs no rounding.  The first candidate, proposed
from `mean` by the first `get_next_sample` call, is the `double` sum of `mean` and some
`r1` between -1 and 1. -/
theorem normal_proposal_rounded_sum {W : Type} (M : Libm) (L : Stdlib W) (d : Normal1dPDF)
    (m : Machine ℚ W) (current : ℚ) (w : W) :
    (MetropolisSampling.new_default (d.toPDF M L) m).1.actual = d.mean ∧
    (∃ s m1, MetropolisSampling.new (d.toPDF M L) 0 m = (Except.ok s, m1) ∧
      s.actual = d.mean) ∧
    ((d.toPDF M L).candidate_proposal current w).1 =
      to_double (current + perturbation_of L (L.rand w).1) ∧
    -1 ≤ perturbation_of L (L.rand w).1 ∧ perturbation_of L (L.rand w).1 ≤ 1 ∧
    (to_double (current + perturbation_of L (L.rand w).1) =
        current + perturbation_of L (L.rand w).1 →
      |((d.toPDF M L).candidate_proposal current w).1 - current| ≤ 1) ∧
    proposal_args
        (get_next_sample L (MetropolisSampling.new_default (d.toPDF M L) m).1
          (MetropolisSampling.new_default (d.toPDF M L) m).2).2.2.calls =
      proposal_args m.calls ++ [d.mean] ∧
    (∃ r1 : ℚ, -1 ≤ r1 ∧ r1 ≤ 1 ∧
      ((d.toPDF M L).candidate_proposal
        (MetropolisSampling.new_default (d.toPDF M L) m).1.actual m.world).1 =
          to_double (d.mean + r1)) := by
  have hb := perturbation_of_bounds L (L.rand w).1 (L.rand_le w)
  have hb0 := perturbation_of_bounds L (L.rand m.world).1 (L.rand_le m.world)
  refine ⟨rfl, ⟨_, _, rfl, rfl⟩, rfl, hb.1, hb.2, ?_, ?_, ?_⟩
  · intro hexact
    show |to_double (current + perturbation_of L (L.rand w).1) - current| ≤ 1
    rw [hexact, add_sub_cancel_left]
    exact abs_le.mpr hb
  · rw [get_next_sample_eq_loop, run_loop_proposal_args]
    have hr : List.range ((MetropolisSampling.new_default (d.toPDF M L) m).1.k.toNat + 1) =
        [0] := rfl
    rw [hr]
    simp [MetropolisSampling.new_default, Machine.log, proposal_args,
      List.filterMap_append, run_loop, Normal1dPDF.toPDF, Normal1dPDF.valid_candidate]
  · exact ⟨perturbation_of L (L.rand m.world).1, hb0.1, hb0.2, rfl⟩

/-- C17: for an interval `k >= 0` the value returned by one `get_next_sample` call is
the chain value held before the call, or the candidate that `candidate_proposal`
returned in one of the `k + 1` steps of that call (step `i` from 0, with `i <= k`). -/
theorem returned_value_from_density {element W : Type} (L : Stdlib W)
    (s : MetropolisSampling element W) (m : Machine element W) (hk : 0 ≤ s.k) :
    (get_next_sample L s m).1 = s.actual ∨
      ∃ i : Nat, (i : Int) ≤ s.k ∧
        (get_next_sample L s m).1 =
          (s.pdf.candidate_proposal (run_loop L i s m).1.actual
            (run_loop L i s m).2.world).1 := by
  rw [get_next_sample_eq_loop]
  rcases run_loop_actual_mem L (s.k.toNat + 1) s m with h | ⟨i, hi, h⟩
  · exact Or.inl h
  · refine Or.inr ⟨i, ?_, h⟩
    have hkn : ((s.k.toNat : Nat) : Int) = s.k := Int.toNat_of_nonneg hk
    omega

/-- Witness of C17 at thinning 2 over the flat density. -/
theorem returned_value_from_density_witness :
    (0 : Int) ≤ flatSampler.k ∧
    ((get_next_sample counterLib flatSampler startMachine).1 = flatSampler.actual ∨
      ∃ i : Nat, (i : Int) ≤ flatSampler.k ∧
        (get_next_sample counterLib flatSampler startMachine).1 =
          (flatSampler.pdf.candidate_proposal
            (run_loop counterLib i flatSampler startMachine).1.actual
            (run_loop counterLib i flatSampler startMachine).2.world).1) :=
  ⟨by decide, returned_value_from_density counterLib flatSampler startMachine (by decide)⟩

/-- C18: for a current value of positive density `da` and a fixed `u`, if the decision
accepts a candidate of density `d1` then it accepts every candidate of density
`d2 >= d1`, whether through `alpha >= 1` or through `u < alpha`; `d1 >= 0` is not
needed.  The decision is the one the loop body takes. -/
theorem accepts_monotone (da d1 d2 u : ℚ) (hda : 0 < da) (h12 : d1 ≤ d2)
    (hacc : accepts d1 da u = true) :
    accepts d2 da u = true ∧
    ∀ (element W : Type) (L : Stdlib W) (s : MetropolisSampling element W)
      (m : Machine element W),
      (run_body L s m).1 =
        (if accepts (s.pdf.probability (s.pdf.candidate_proposal s.actual m.world).1)
            (s.pdf.probability s.actual)
            (uniform_of L (L.rand (s.pdf.candidate_proposal s.actual m.world).2).1) then
          { s with actual := (s.pdf.candidate_proposal s.actual m.world).1 }
        else s) := by
  refine ⟨?_, fun _ _ L s m => run_body_fst_eq_accepts L s m⟩
  have hdiv : d1 / da ≤ d2 / da := div_le_div_of_nonneg_right h12 (le_of_lt hda)
  unfold accepts at hacc ⊢
  rw [fdiv_of_pos _ _ hda] at hacc ⊢
  simp only [Alpha.ge_one, Alpha.gt, decide_eq_true_eq] at hacc ⊢
  by_cases h1 : 1 ≤ d1 / da
  · rw [if_pos (le_trans h1 hdiv)]
  · rw [if_neg h1] at hacc
    by_cases h2 : u < d1 / da
    · by_cases h3 : 1 ≤ d2 / da
      · rw [if_pos h3]
      · rw [if_neg h3, if_pos (lt_of_lt_of_le h2 hdiv)]
    · rw [if_neg h2] at hacc
      exact absurd hacc (by decide)

/-- Witness of C18: current density 2, `u = 0`, candidates of density 1 and 3. -/
theorem accepts_monotone_witness :
    (0 : ℚ) < 2 ∧ (1 : ℚ) ≤ 3 ∧ accepts 1 2 0 = true ∧ accepts 3 2 0 = true :=
  ⟨by norm_num, by norm_num, by norm_num [accepts, fdiv, Alpha.ge_one, Alpha.gt],
    (accepts_monotone 2 1 3 0 (by norm_num) (by norm_num)
      (by norm_num [accepts, fdiv, Alpha.ge_one, Alpha.gt])).1⟩

end Metropolis
